import Mathlib

/-!
Verification model of the owmeta-core bundle packaging, dependency-resolution
and distribution subsystem: the descriptor / pattern-resolution layer, the
manifest & archive codec, the local cache and installer, the dependency
resolver, the fetcher/deployer orchestration, and the repository-index
refresh discipline.  The Python implementation of `owmeta_core.bundle` is not
part of the source tree available here (only its documentation, README usage
examples and CI scripts are), so every definition below is modelled from the
specification's own words, as faithfully as the spec states them.
-/

namespace OwmetaCore

/-- Modelled from the spec: byte strings (file contents, serialized graphs,
archive bytes) are modelled as lists of naturals. -/
abbrev Bytes := List Nat

/-- Modelled from the spec: a BundleId is an opaque string identifier. -/
abbrev BundleId := String

/-- Modelled from the spec: the pair (BundleId, Version) is the unique key of
a bundle release; versions are naturals. -/
abbrev Key := BundleId × Nat

/-- Modelled from the spec: the content hash of a byte string.  The spec
treats the hash as collision-free (any content change must be detected), so
it is idealized as the identity injection on contents. -/
def contentHash (b : Bytes) : Bytes := b

/-- Modelled from the spec: the error taxonomy of §7, plus `depthExhausted`,
an artifact of the fuelled embedding of the DFS which is proved unreachable
for the fuel used by `resolveDeps`. -/
inductive BundleError where
  | emptySelection
  | versionAlreadyPublished (bid : BundleId) (version : Nat)
  | archiveCorrupt
  | cyclicDependency (k : Key) (stack : List Key)
  | unresolvedDependency (k : Key)
  | remoteUnavailable
  | notFound
  | depthExhausted

/-! ### Descriptor and pattern resolution (§4.1) -/

/-- Modelled from the spec: splitting a context identifier into path
segments for glob matching. -/
def splitSegs (s : String) : List String := s.splitOn "/"

/-- Modelled from the spec: glob matching over path segments, where `*`
matches exactly one segment and `**` matches any number of segments; any
other pattern segment matches by literal equality. -/
def globMatch : List String → List String → Bool
  | [], [] => true
  | [], _ :: _ => false
  | p :: ps, [] => p = "**" && globMatch ps []
  | p :: ps, s :: ss =>
    if p = "**" then globMatch ps (s :: ss) || globMatch (p :: ps) ss
    else if p = "*" then globMatch ps ss
    else p = s && globMatch ps ss
termination_by p s => (p.length, s.length)

/-- Modelled from the spec: a context-identifier pattern is a literal URI, a
glob over path segments, or (with the `rgx:` marker) a full regular
expression matched against the whole identifier; the regular expression is
modelled by its extension, a boolean predicate on identifiers. -/
inductive Pattern where
  | lit (s : String)
  | glob (g : String)
  | rgx (matcher : String → Bool)

/-- Modelled from the spec: whether a context identifier matches a
pattern. -/
def Pattern.matches : Pattern → String → Bool
  | .lit s, c => s = c
  | .glob g, c => globMatch (splitSegs g) (splitSegs c)
  | .rgx m, c => m c

/-- Modelled from the spec: the immutable descriptor value object of §3:
identity, version, include/exclude context patterns, file patterns and
declared dependencies. -/
structure Descriptor where
  bid : BundleId
  version : Nat
  description : String
  includes : List Pattern
  excludes : List Pattern
  fileIncludes : List Pattern
  fileExcludes : List Pattern
  dependencies : List Key

/-- Modelled from the spec: a snapshot of the source store, enumerating each
named context together with its serialized statement set. -/
structure StoreSnapshot where
  graphs : List (String × Bytes)

/-- Modelled from the spec: the context identifiers present in a store
snapshot. -/
def StoreSnapshot.contexts (s : StoreSnapshot) : List String := s.graphs.map Prod.fst

/-- Modelled from the spec (§4.1): the selection a descriptor makes against a
store snapshot — the union of contexts matching any `includes` pattern minus
the union of contexts matching any `excludes` pattern. -/
def selectedContexts (d : Descriptor) (snap : StoreSnapshot) : List String :=
  (snap.contexts.filter fun c => d.includes.any (Pattern.matches · c)).filter
    fun c => !(d.excludes.any (Pattern.matches · c))

/-- Modelled from the spec (§4.1): `resolve(descriptor, store_snapshot)`;
fails with `EmptySelectionError` when the selection is empty. -/
def resolveContexts (d : Descriptor) (snap : StoreSnapshot) :
    Except BundleError (List String) :=
  match selectedContexts d snap with
  | [] => .error .emptySelection
  | c :: cs => .ok (c :: cs)

/-! ### Deterministic entry ordering for the archive codec (§4.2) -/

/-- Modelled from the spec: strict-weak lexicographic comparison of lists of
naturals, used to sort archive entries deterministically. -/
def lexLe : List Nat → List Nat → Bool
  | [], _ => true
  | _ :: _, [] => false
  | a :: as, b :: bs => if a < b then true else if b < a then false else lexLe as bs

/-- Modelled from the spec: the sort key of a context identifier or file
path: its character codes. -/
def strKey (s : String) : List Nat := s.data.map Char.toNat

/-- Modelled from the spec: ordering of bundle entries (context identifier or
file path, content) by identifier/path. -/
def entryLe (a b : String × Bytes) : Prop := lexLe (strKey a.1) (strKey b.1) = true

instance : DecidableRel entryLe := fun _ _ => inferInstanceAs (Decidable (_ = true))

/-- Modelled from the spec: the strict version of `entryLe`, used to show the
sorted entry order is unique when identifiers do not repeat. -/
def entryStrict (a b : String × Bytes) : Prop := entryLe a b ∧ a.1 ≠ b.1

/-- Modelled from the spec (§4.2): deterministic traversal order — entries
sorted by identifier/path. -/
def sortEntries (l : List (String × Bytes)) : List (String × Bytes) :=
  l.insertionSort entryLe

/-! ### Bundle directories, manifests and the archive codec (§3, §4.2) -/

/-- Modelled from the spec: an installed bundle directory — one serialized
graph per captured context, the included files, and the identity under which
it is keyed. -/
structure BundleDirectory where
  bid : BundleId
  version : Nat
  graphs : List (String × Bytes)
  files : List (String × Bytes)

/-- Modelled from the spec: the canonical form of a bundle directory, with
graph and file entries in the deterministic sorted order used by `pack`. -/
def canonDir (b : BundleDirectory) : BundleDirectory :=
  { b with graphs := sortEntries b.graphs, files := sortEntries b.files }

/-- Modelled from the spec (§3): the manifest — a derived artifact holding a
format version, the bundle identity, and a content hash per captured graph
and per included file. -/
structure Manifest where
  formatVersion : Nat
  bid : BundleId
  version : Nat
  graphHashes : List (String × Bytes)
  fileHashes : List (String × Bytes)

/-- Modelled from the spec: the hash line a manifest records for one
entry. -/
def hashEntry (e : String × Bytes) : String × Bytes := (e.1, contentHash e.2)

/-- Modelled from the spec: the manifest derived from a bundle directory,
listing entries in the deterministic sorted order. -/
def manifestOf (b : BundleDirectory) : Manifest :=
  { formatVersion := 1
    bid := b.bid
    version := b.version
    graphHashes := (sortEntries b.graphs).map hashEntry
    fileHashes := (sortEntries b.files).map hashEntry }

/-- Modelled from the spec: length-prefixed encoding of a string. -/
def encStr (s : String) : Bytes := s.data.length :: s.data.map Char.toNat

/-- Modelled from the spec: decoding of a length-prefixed string. -/
def decStr : Bytes → Option (String × Bytes)
  | [] => none
  | n :: rest =>
    if n ≤ rest.length then some (String.mk ((rest.take n).map Char.ofNat), rest.drop n)
    else none

/-- Modelled from the spec: length-prefixed encoding of a byte string. -/
def encBytes (b : Bytes) : Bytes := b.length :: b

/-- Modelled from the spec: decoding of a length-prefixed byte string. -/
def decBytes : Bytes → Option (Bytes × Bytes)
  | [] => none
  | n :: rest => if n ≤ rest.length then some (rest.take n, rest.drop n) else none

/-- Modelled from the spec: encoding of one named entry (graph or file). -/
def encEntry (e : String × Bytes) : Bytes := encStr e.1 ++ encBytes e.2

/-- Modelled from the spec: decoding of one named entry. -/
def decEntry (b : Bytes) : Option ((String × Bytes) × Bytes) :=
  match decStr b with
  | none => none
  | some (s, r) =>
    match decBytes r with
    | none => none
    | some (c, r2) => some ((s, c), r2)

/-- Modelled from the spec: encoding of a counted list of entries. -/
def encEntryList (l : List (String × Bytes)) : Bytes :=
  l.length :: l.flatMap encEntry

/-- Modelled from the spec: decoding of `n` consecutive entries. -/
def decEntriesAux : Nat → Bytes → Option (List (String × Bytes) × Bytes)
  | 0, b => some ([], b)
  | n + 1, b =>
    match decEntry b with
    | none => none
    | some (e, r) =>
      match decEntriesAux n r with
      | none => none
      | some (es, r2) => some (e :: es, r2)

/-- Modelled from the spec: decoding of a counted list of entries. -/
def decEntryList : Bytes → Option (List (String × Bytes) × Bytes)
  | [] => none
  | n :: rest => decEntriesAux n rest

/-- Modelled from the spec (§4.2, §6): the archive byte stream — format
version, manifest (identity and per-entry hashes), then the graph entries and
the file entries. -/
def encodeArchive (m : Manifest) (gs fs : List (String × Bytes)) : Bytes :=
  m.formatVersion ::
    (encStr m.bid ++
      m.version ::
        (encEntryList m.graphHashes ++
          (encEntryList m.fileHashes ++ (encEntryList gs ++ encEntryList fs))))

/-- Modelled from the spec: parsing an archive byte stream back into its
manifest, graph entries and file entries; any structural defect (missing
manifest, truncated entries, trailing bytes) yields `none`. -/
def decodeArchive (b : Bytes) :
    Option (Manifest × List (String × Bytes) × List (String × Bytes)) :=
  match b with
  | [] => none
  | fv :: r0 =>
    match decStr r0 with
    | none => none
    | some (bid, r1) =>
      match r1 with
      | [] => none
      | ver :: r2 =>
        match decEntryList r2 with
        | none => none
        | some (gh, r3) =>
          match decEntryList r3 with
          | none => none
          | some (fh, r4) =>
            match decEntryList r4 with
            | none => none
            | some (gs, r5) =>
              match decEntryList r5 with
              | none => none
              | some (fs, r6) =>
                if r6 = [] then some (⟨fv, bid, ver, gh, fh⟩, gs, fs) else none

/-- Modelled from the spec (§4.2): `pack(bundle_directory) -> archive_bytes`
with deterministic (sorted) traversal order. -/
def pack (b : BundleDirectory) : Bytes :=
  encodeArchive (manifestOf b) (sortEntries b.graphs) (sortEntries b.files)

/-- Modelled from the spec (§4.2): the verification `unpack` performs against
the manifest — expected format version, and the recorded hash lines equal to
the hashes recomputed from the actual entries (which entails that every
listed entry is present and no extra entries exist). -/
def verifyArchive (m : Manifest) (gs fs : List (String × Bytes)) : Prop :=
  m.formatVersion = 1 ∧ m.graphHashes = gs.map hashEntry ∧ m.fileHashes = fs.map hashEntry

instance (m : Manifest) (gs fs : List (String × Bytes)) : Decidable (verifyArchive m gs fs) :=
  inferInstanceAs (Decidable (_ ∧ _ ∧ _))

/-- Modelled from the spec (§4.2): `unpack(archive_bytes)`: parse, then
verify structure and every content hash; any mismatch is
`ArchiveCorruptError`. -/
def unpack (b : Bytes) : Except BundleError BundleDirectory :=
  match decodeArchive b with
  | none => .error .archiveCorrupt
  | some (m, gs, fs) =>
    if verifyArchive m gs fs then .ok ⟨m.bid, m.version, gs, fs⟩
    else .error .archiveCorrupt

/-! ### Local cache and installer (§4.3, §4.6) -/

/-- Modelled from the spec: the local cache — installed bundle directories
keyed by (BundleId, Version). -/
abbrev LocalCache := List (Key × BundleDirectory)

/-- Modelled from the spec: cache lookup; an absent key is a `NotFound`
result (`none`), not an error. -/
def cacheLookup : LocalCache → Key → Option BundleDirectory
  | [], _ => none
  | e :: rest, k => if e.1 = k then some e.2 else cacheLookup rest k

/-- Modelled from the spec (§4.2/§4.3): unpacking an archive into the cache
with the stage-then-commit discipline: the whole archive is parsed and every
hash verified first, and only a fully verified bundle directory is published
under its final key, in one atomic step; on any failure the cache is
returned unchanged. -/
def unpackInto (cache : LocalCache) (b : Bytes) : Option BundleError × LocalCache :=
  match unpack b with
  | .error e => (some e, cache)
  | .ok dir => (none, ((dir.bid, dir.version), dir) :: cache)

/-- Modelled from the spec: file selection for the installer — the project
files matching any file-include pattern and no file-exclude pattern. -/
def selectedFiles (d : Descriptor) (files : List (String × Bytes)) :
    List (String × Bytes) :=
  (files.filter fun e => d.fileIncludes.any (Pattern.matches · e.1)).filter
    fun e => !(d.fileExcludes.any (Pattern.matches · e.1))

/-- Modelled from the spec (§4.6): building the bundle directory a descriptor
describes: the serialized contexts selected by §4.1 and the selected project
files. -/
def buildDirectory (d : Descriptor) (snap : StoreSnapshot)
    (files : List (String × Bytes)) : Except BundleError BundleDirectory :=
  match resolveContexts d snap with
  | .error e => .error e
  | .ok ctxs =>
    .ok { bid := d.bid
          version := d.version
          graphs := snap.graphs.filter fun e => decide (e.1 ∈ ctxs)
          files := selectedFiles d files }

/-- Modelled from the spec: the content hash of a whole bundle directory,
taken over its canonical packed bytes. -/
def dirHash (b : BundleDirectory) : Bytes := contentHash (pack b)

/-- Modelled from the spec (§4.6): `install(descriptor, store_snapshot,
project_root)`: build the directory, then commit it into the local cache
under (BundleId, Version); if that key is already installed, identical
content is a no-op and differing content fails with
`VersionAlreadyPublishedError`. -/
def install (d : Descriptor) (snap : StoreSnapshot) (files : List (String × Bytes))
    (cache : LocalCache) : Except BundleError LocalCache :=
  match buildDirectory d snap files with
  | .error e => .error e
  | .ok dir =>
    match cacheLookup cache (d.bid, d.version) with
    | none => .ok (((d.bid, d.version), dir) :: cache)
    | some existing =>
      if dirHash existing = dirHash dir then .ok cache
      else .error (.versionAlreadyPublished d.bid d.version)

/-! ### Dependency resolver (§4.4) -/

/-- Modelled from the spec: the dependency graph, given as an adjacency list
from a bundle key to the keys it depends on. -/
abbrev DepGraph := List (Key × List Key)

/-- Modelled from the spec: the dependency edges of one key (empty for a key
not present in the adjacency list). -/
def adjLookup : DepGraph → Key → List Key
  | [], _ => []
  | e :: rest, k => if e.1 = k then e.2 else adjLookup rest k

/-- Modelled from the spec: every key mentioned by the adjacency list. -/
def adjKeys (adj : DepGraph) : List Key :=
  adj.map Prod.fst ++ adj.flatMap Prod.snd

/-- Modelled from the spec: the finite universe of keys the walk from a root
can ever touch, used to bound the DFS depth. -/
def adjUniverse (adj : DepGraph) (root : Key) : List Key :=
  (root :: adjKeys adj).dedup

/-- Modelled from the spec: the visiting/visited coloring state of the DFS:
`gray` is the stack of keys being visited (most recent first) and `out` the
finished keys, most recently finished first. -/
structure DfsSt where
  gray : List Key
  out : List Key

/-- Modelled from the spec: the two ways the DFS itself can stop: a cycle,
or exhaustion of the fuel of the embedding (proved unreachable for the fuel
`resolveDeps` supplies). -/
inductive ResolveErr where
  | depthExhausted
  | cyclic (k : Key) (stack : List Key)

/-- Modelled from the spec: folding a visit function over a list of
dependency edges, stopping at the first error. -/
def dfsFoldAux (f : Key → DfsSt → Except ResolveErr DfsSt) :
    List Key → DfsSt → Except ResolveErr DfsSt
  | [], st => .ok st
  | c :: cs, st =>
    match f c st with
    | .error e => .error e
    | .ok st1 => dfsFoldAux f cs st1

/-- Modelled from the spec (§4.4): DFS with visiting/visited coloring.
Meeting a gray key fails with a cycle error carrying the offending key and
the visiting stack; a key is appended to the finished list only after all
its dependencies are.  The fuel argument is an embedding artifact, proved
unreachable for the fuel `resolveDeps` supplies. -/
def dfsVisit (g : Key → List Key) : Nat → Key → DfsSt → Except ResolveErr DfsSt
  | 0, _, _ => .error .depthExhausted
  | fuel + 1, k, st =>
    if k ∈ st.out then .ok st
    else if k ∈ st.gray then .error (.cyclic k st.gray)
    else
      match dfsFoldAux (dfsVisit g fuel) (g k) ⟨k :: st.gray, st.out⟩ with
      | .error e => .error e
      | .ok st2 => .ok ⟨st.gray, k :: st2.out⟩

/-- Modelled from the spec: translating a DFS stop into the §7 error
taxonomy. -/
def resolveErrToBundleError : ResolveErr → BundleError
  | .depthExhausted => .depthExhausted
  | .cyclic k stack => .cyclicDependency k stack

/-- Modelled from the spec (§4.4): dependency resolution from a root key:
DFS over the dependency graph, producing the topologically ordered list of
keys, leaves first. -/
def resolveDeps (adj : DepGraph) (root : Key) : Except BundleError (List Key) :=
  match dfsVisit (adjLookup adj) ((adjUniverse adj root).length + 1) root ⟨[], []⟩ with
  | .error e => .error (resolveErrToBundleError e)
  | .ok st => .ok st.out.reverse

/-- Modelled from the spec (§4.7): the fetcher installs the resolver's output
in its leaves-first order, skipping keys already installed; on a resolution
error nothing at all is installed. -/
def fetchAll (adj : DepGraph) (root : Key) (installed : List Key) :
    Option BundleError × List Key :=
  match resolveDeps adj root with
  | .error e => (some e, installed)
  | .ok order => (none, installed ++ order.filter fun k => decide (k ∉ installed))

/-- Modelled from the spec: reachability in the dependency graph (zero or
more dependency edges). -/
inductive Reaches (g : Key → List Key) : Key → Key → Prop
  | refl (k : Key) : Reaches g k k
  | step {a c b : Key} : c ∈ g a → Reaches g c b → Reaches g a b

/-- Modelled from the spec: a nonempty dependency path from `a` to `b`;
`ReachesPlus g c c` says `c` lies on a dependency cycle. -/
def ReachesPlus (g : Key → List Key) (a b : Key) : Prop :=
  ∃ c, c ∈ g a ∧ Reaches g c b

/-- Modelled from the spec: the finished list is in reverse topological
order: each key's dependencies all occur in the remainder (= finished
earlier). -/
def TopoOut (g : Key → List Key) : List Key → Prop
  | [] => True
  | k :: rest => (∀ d ∈ g k, d ∈ rest) ∧ TopoOut g rest

/-- Modelled from the spec (§4.4): the output order is leaves-first — in any
split of the list, the dependencies of the split point already occur to its
left. -/
def LeavesFirst (g : Key → List Key) (order : List Key) : Prop :=
  ∀ l1 k l2, order = l1 ++ k :: l2 → ∀ d ∈ g k, d ∈ l1

/-- Modelled from the spec: keys of the universe not yet colored by the DFS
state. -/
def whiteCount (uni : List Key) (st : DfsSt) : Nat :=
  (uni.filter fun x => decide (x ∉ st.gray) && decide (x ∉ st.out)).length

/-- Modelled from the spec: the visiting stack always forms a dependency
chain — each entry is a dependency of the entry below it. -/
def GrayChain (g : Key → List Key) (st : DfsSt) : Prop :=
  List.Chain' (fun a b => a ∈ g b) st.gray

/-- Modelled from the spec: a key is only visited as the root (empty stack)
or as a dependency of the top of the visiting stack. -/
def CallOk (g : Key → List Key) (k : Key) (st : DfsSt) : Prop :=
  st.gray = [] ∨ ∃ h t, st.gray = h :: t ∧ k ∈ g h

/-! ### Remotes and the fetcher (§4.5, §4.7) -/

/-- Modelled from the spec: a named remote with a reachability flag and the
bundle archives it advertises, keyed by (BundleId, Version). -/
structure Remote where
  name : String
  reachable : Bool
  bundles : List (Key × Bytes)

/-- Modelled from the spec: association lookup of an advertised archive. -/
def assocBytes : List (Key × Bytes) → Key → Option Bytes
  | [], _ => none
  | e :: rest, k => if e.1 = k then some e.2 else assocBytes rest k

/-- Modelled from the spec (§4.5): downloading an archive for a key, trying
reachable remotes in declared order. -/
def download : List Remote → Key → Option Bytes
  | [], _ => none
  | r :: rs, k =>
    if r.reachable then
      match assocBytes r.bundles k with
      | some b => some b
      | none => download rs k
    else download rs k

/-- Modelled from the spec: the number of reachable remotes, each of which is
asked for one listing when the remotes must be consulted. -/
def reachableCount (rs : List Remote) : Nat := (rs.filter Remote.reachable).length

/-- Modelled from the spec: the versions of a bundle advertised by any
reachable remote. -/
def advertisedVersions (rs : List Remote) (bid : BundleId) : List Nat :=
  (rs.filter Remote.reachable).flatMap fun r =>
    ((r.bundles.map Prod.fst).filter fun k => decide (k.1 = bid)).map Prod.snd

/-- Modelled from the spec: the versions of a bundle present in the local
cache. -/
def localVersionsOf (cache : LocalCache) (bid : BundleId) : List Nat :=
  ((cache.map Prod.fst).filter fun k => decide (k.1 = bid)).map Prod.snd

/-- Modelled from the spec: the greatest element of a version list. -/
def listMax : List Nat → Option Nat
  | [] => none
  | n :: rest =>
    match listMax rest with
    | none => some n
    | some m => some (Nat.max n m)

/-- Modelled from the spec: a fetch outcome together with the number of
network accesses it performed. -/
abbrev FetchOut := Except BundleError (Key × LocalCache) × Nat

/-- Modelled from the spec: adding listing calls to a fetch outcome. -/
def addCalls (n : Nat) (o : FetchOut) : FetchOut := (o.1, n + o.2)

/-- Modelled from the spec (§4.7): downloading, verifying and installing one
bundle from the remotes; the single download is one network access. -/
def fetchRemote (cache : LocalCache) (remotes : List Remote) (k : Key) : FetchOut :=
  match download remotes k with
  | none => (.error .notFound, 1)
  | some bytes =>
    match unpack bytes with
    | .error e => (.error e, 1)
    | .ok dir => (.ok (k, (k, dir) :: cache), 1)

/-- Modelled from the spec (§4.7): `fetch(BundleId, version?, remotes)`.  A
bundle already present locally is returned with no network access; an
unspecified version is resolved to the highest version present locally, or,
when the bundle is absent locally, to the highest version advertised by any
reachable remote (one listing call per reachable remote). -/
def fetchOne (cache : LocalCache) (remotes : List Remote) (bid : BundleId)
    (version : Option Nat) : FetchOut :=
  match version with
  | some v =>
    match cacheLookup cache (bid, v) with
    | some _ => (.ok ((bid, v), cache), 0)
    | none => fetchRemote cache remotes (bid, v)
  | none =>
    match listMax (localVersionsOf cache bid) with
    | some v => (.ok ((bid, v), cache), 0)
    | none =>
      match listMax (advertisedVersions remotes bid) with
      | none => (.error .notFound, reachableCount remotes)
      | some v => addCalls (reachableCount remotes) (fetchRemote cache remotes (bid, v))

/-! ### The Bundle object (README usage) -/

/-- Modelled from the spec and README: constructing and entering a `Bundle`
object: an installed bundle is used directly; a bundle absent from the local
cache is first fetched from the remotes, so no prior explicit fetch is
required before its contexts are queryable. -/
def bundleEnter (cache : LocalCache) (remotes : List Remote) (bid : BundleId)
    (version : Nat) : Except BundleError (LocalCache × BundleDirectory) :=
  match cacheLookup cache (bid, version) with
  | some dir => .ok (cache, dir)
  | none =>
    match download remotes (bid, version) with
    | none => .error .notFound
    | some bytes =>
      match unpack bytes with
      | .error e => .error e
      | .ok dir => .ok (((bid, version), dir) :: cache, dir)

/-! ### Repository-index single-flight refresh (§4.3, §5) -/

/-- Modelled from the spec: a remote's bundle listing. -/
abbrev Listing := List Key

/-- Modelled from the spec (§5): the per-remote-key refresh state within one
freshness window: the callers waiting on the in-flight network call (if
any), the cached listing (if the call completed), the number of network
calls issued, and the results delivered to callers. -/
structure SFState where
  inflight : Option (List Nat)
  cached : Option Listing
  netCalls : Nat
  delivered : List (Nat × Listing)

/-- Modelled from the spec: the initial refresh state: nothing cached,
nothing in flight. -/
def sfInit : SFState := ⟨none, none, 0, []⟩

/-- Modelled from the spec: the events a refresh key observes: a caller
requests the listing, or the in-flight network call completes with a
listing.  Interleavings of these events model concurrent callers. -/
inductive SFEvent where
  | request (caller : Nat)
  | complete (l : Listing)

/-- Modelled from the spec (§5): the coalescing step.  A request is served
from the cached listing when present; otherwise it joins an in-flight call
when there is one, and only when there is neither does it issue a network
call.  A completion delivers the single call's result to every waiting
caller and caches it for the rest of the freshness window. -/
def sfStep (st : SFState) : SFEvent → SFState
  | .request c =>
    match st.cached with
    | some l => { st with delivered := (c, l) :: st.delivered }
    | none =>
      match st.inflight with
      | some ws => { st with inflight := some (c :: ws) }
      | none => { st with inflight := some [c], netCalls := st.netCalls + 1 }
  | .complete l =>
    match st.inflight with
    | some ws =>
      { st with inflight := none, cached := some l,
                delivered := ws.map (fun c => (c, l)) ++ st.delivered }
    | none => st

/-- Modelled from the spec: running a whole interleaving of refresh events
within one freshness window (the window never expires during the trace). -/
def sfRun (evs : List SFEvent) : SFState := evs.foldl sfStep sfInit

/-- Modelled from the spec: the invariant of the single-flight state: at most
one network call; a fully idle key has had no call and no delivery; any
activity means exactly one call; every delivery carries the cached listing of
the unique call; and a key with a call in flight has no cached listing
yet. -/
def SFInv (st : SFState) : Prop :=
  st.netCalls ≤ 1 ∧
  (st.inflight = none ∧ st.cached = none → st.netCalls = 0 ∧ st.delivered = []) ∧
  ((st.inflight ≠ none ∨ st.cached ≠ none) → st.netCalls = 1) ∧
  (∀ l, st.cached = some l → ∀ d ∈ st.delivered, d.2 = l) ∧
  (st.cached = none → st.delivered = []) ∧
  (st.inflight ≠ none → st.cached = none)

/-- Modelled from the spec (§5): a caller's request has been taken into
account: the caller is either among the waiters of the in-flight network
call, or has already been delivered the cached listing of the single
call. -/
def Served (st : SFState) (c : Nat) : Prop :=
  (∃ ws, st.inflight = some ws ∧ c ∈ ws) ∨
  (∃ l, st.cached = some l ∧ (c, l) ∈ st.delivered)

/-! ### Concrete example inputs used by the witnesses -/

/-- Modelled from the spec: a small concrete bundle directory. -/
def exDir : BundleDirectory :=
  ⟨"exbundle", 1, [("ctxB", [7, 8]), ("ctxA", [1])], [("fileA", [5])]⟩

/-- Modelled from the spec: the same logical content as `exDir` enumerated in
a different order. -/
def exDirPermuted : BundleDirectory :=
  ⟨"exbundle", 1, [("ctxA", [1]), ("ctxB", [7, 8])], [("fileA", [5])]⟩

/-- Modelled from the spec: version 3 of the example bundle. -/
def exDir3 : BundleDirectory := ⟨"exbundle", 3, [("ctxA", [2])], []⟩

/-- Modelled from the spec: a small concrete descriptor selecting one
context. -/
def exDesc : Descriptor := ⟨"exbundle", 1, "", [.lit "ctxA"], [], [], [], []⟩

/-- Modelled from the spec: a small concrete store snapshot. -/
def exSnap : StoreSnapshot := ⟨[("ctxA", [1]), ("ctxB", [2])]⟩

/-- Modelled from the spec: the bundle directory `exDesc` builds from
`exSnap`. -/
def exInstallDir : BundleDirectory := ⟨"exbundle", 1, [("ctxA", [1])], []⟩

/-- Modelled from the spec: the cache after installing `exDesc`. -/
def exCache1 : LocalCache := [(("exbundle", 1), exInstallDir)]

/-- Modelled from the spec: a conflicting bundle directory previously
published under the same key with different content. -/
def exOtherDir : BundleDirectory := ⟨"exbundle", 1, [("ctxA", [9])], []⟩

/-- Modelled from the spec: a two-bundle acyclic dependency graph. -/
def exAdjAcyclic : DepGraph := [(("A", 1), [("B", 1)]), (("B", 1), [])]

/-- Modelled from the spec: the minimal cyclic dependency graph A→B→A. -/
def exAdjCyclic : DepGraph := [(("A", 1), [("B", 1)]), (("B", 1), [("A", 1)])]

/-- Modelled from the spec: a reachable remote advertising two versions of
the example bundle as packed archives. -/
def exRemote : Remote :=
  ⟨"exremote", true, [(("exbundle", 1), pack exDir), (("exbundle", 3), pack exDir3)]⟩

/-- Modelled from the spec: an interleaving of three concurrent callers and
the completion of the single network call. -/
def exEvents : List SFEvent :=
  [.request 0, .request 1, .complete [("exbundle", 1)], .request 2]

/-! ## Helper lemmas: ordering and sorting -/

lemma lexLe_total (x y : List Nat) : lexLe x y = true ∨ lexLe y x = true := by
  induction x generalizing y with
  | nil => left; rfl
  | cons a as ih =>
    cases y with
    | nil => right; rfl
    | cons b bs =>
      rcases Nat.lt_trichotomy a b with h | h | h
      · left; simp [lexLe, h]
      · subst h
        rcases ih bs with h2 | h2
        · left; simp [lexLe, h2]
        · right; simp [lexLe, h2]
      · right; simp [lexLe, h]

lemma lexLe_antisymm {x y : List Nat} (h1 : lexLe x y = true) (h2 : lexLe y x = true) :
    x = y := by
  induction x generalizing y with
  | nil =>
    cases y with
    | nil => rfl
    | cons b bs => simp [lexLe] at h2
  | cons a as ih =>
    cases y with
    | nil => simp [lexLe] at h1
    | cons b bs =>
      rcases Nat.lt_trichotomy a b with h | h | h
      · simp [lexLe, h, Nat.not_lt_of_lt h] at h2
      · subst h
        simp only [lexLe, lt_irrefl, if_false] at h1 h2
        rw [ih h1 h2]
      · simp [lexLe, h, Nat.not_lt_of_lt h] at h1

lemma lexLe_trans {x y z : List Nat} (h1 : lexLe x y = true) (h2 : lexLe y z = true) :
    lexLe x z = true := by
  induction x generalizing y z with
  | nil => rfl
  | cons a as ih =>
    cases y with
    | nil => simp [lexLe] at h1
    | cons b bs =>
      cases z with
      | nil => simp [lexLe] at h2
      | cons c cs =>
        rcases Nat.lt_trichotomy a b with hab | hab | hab
        · rcases Nat.lt_trichotomy b c with hbc | hbc | hbc
          · simp [lexLe, Nat.lt_trans hab hbc]
          · subst hbc; simp [lexLe, hab]
          · simp [lexLe, hbc, Nat.not_lt_of_lt hbc] at h2
        · subst hab
          rcases Nat.lt_trichotomy a c with hac | hac | hac
          · simp [lexLe, hac]
          · subst hac
            simp only [lexLe, lt_irrefl, if_false] at h1 h2 ⊢
            exact ih h1 h2
          · simp [lexLe, hac, Nat.not_lt_of_lt hac] at h2
        · simp [lexLe, hab, Nat.not_lt_of_lt hab] at h1

lemma strKey_inj {s t : String} (h : strKey s = strKey t) : s = t := by
  have h2 := congrArg (List.map Char.ofNat) h
  rw [strKey, strKey, List.map_map, List.map_map] at h2
  have hid : (Char.ofNat ∘ Char.toNat) = fun c => c := by
    funext c; simp [Function.comp, Char.ofNat_toNat]
  rw [hid, List.map_id', List.map_id'] at h2
  cases s; cases t; simp_all

instance : IsTotal (String × Bytes) entryLe := ⟨fun _ _ => lexLe_total _ _⟩

instance : IsTrans (String × Bytes) entryLe := ⟨fun _ _ _ h1 h2 => lexLe_trans h1 h2⟩

instance : IsAntisymm (String × Bytes) entryStrict :=
  ⟨fun _ _ h1 h2 => absurd (strKey_inj (lexLe_antisymm h1.1 h2.1)) h1.2⟩

lemma sortEntries_perm (l : List (String × Bytes)) : (sortEntries l).Perm l :=
  List.perm_insertionSort entryLe l

lemma sortEntries_sorted (l : List (String × Bytes)) : (sortEntries l).Sorted entryLe :=
  List.sorted_insertionSort entryLe l

lemma sorted_strict {l : List (String × Bytes)} (hs : l.Sorted entryLe)
    (hn : (l.map Prod.fst).Nodup) : l.Sorted entryStrict := by
  rw [List.Nodup, List.pairwise_map] at hn
  exact (List.Pairwise.and_mem.mp hs).imp₂ (fun a b h1 h2 => ⟨h1.2.2, h2⟩) hn |>.imp id

lemma sortEntries_eq_of_perm {l1 l2 : List (String × Bytes)} (hp : l1.Perm l2)
    (hn : (l1.map Prod.fst).Nodup) : sortEntries l1 = sortEntries l2 := by
  have hn2 : (l2.map Prod.fst).Nodup := ((hp.map Prod.fst).nodup_iff).mp hn
  have hp2 : (sortEntries l1).Perm (sortEntries l2) :=
    (sortEntries_perm l1).trans (hp.trans (sortEntries_perm l2).symm)
  have hs1 : (sortEntries l1).Sorted entryStrict :=
    sorted_strict (sortEntries_sorted l1)
      (((sortEntries_perm l1).map Prod.fst).nodup_iff.mpr hn)
  have hs2 : (sortEntries l2).Sorted entryStrict :=
    sorted_strict (sortEntries_sorted l2)
      (((sortEntries_perm l2).map Prod.fst).nodup_iff.mpr hn2)
  exact List.eq_of_perm_of_sorted hp2 hs1 hs2

lemma sortEntries_idem (l : List (String × Bytes)) :
    sortEntries (sortEntries l) = sortEntries l :=
  (sortEntries_sorted l).insertionSort_eq

/-! ## Helper lemmas: the archive codec round-trip -/

lemma decStr_encStr (s : String) (r : Bytes) : decStr (encStr s ++ r) = some (s, r) := by
  have hlen : s.data.length ≤ (s.data.map Char.toNat ++ r).length := by simp
  simp only [encStr, List.cons_append, decStr, hlen, if_true]
  have hml : s.data.length = (s.data.map Char.toNat).length := by simp
  have ht : ((s.data.map Char.toNat ++ r).take s.data.length) = s.data.map Char.toNat := by
    rw [hml, List.take_left]
  have hd : ((s.data.map Char.toNat ++ r).drop s.data.length) = r := by
    rw [hml, List.drop_left]
  rw [ht, hd]
  have hmm : (s.data.map Char.toNat).map Char.ofNat = s.data := by
    rw [List.map_map]
    have hid : (Char.ofNat ∘ Char.toNat) = fun c => c := by
      funext c; simp [Function.comp, Char.ofNat_toNat]
    rw [hid, List.map_id']
  rw [hmm]

lemma decBytes_encBytes (b r : Bytes) : decBytes (encBytes b ++ r) = some (b, r) := by
  simp only [encBytes, List.cons_append, decBytes]
  have hlen : b.length ≤ (b ++ r).length := by simp
  simp [hlen, List.take_left, List.drop_left]

lemma decEntry_encEntry (e : String × Bytes) (r : Bytes) :
    decEntry (encEntry e ++ r) = some (e, r) := by
  simp [encEntry, decEntry, List.append_assoc, decStr_encStr, decBytes_encBytes]

lemma decEntriesAux_enc (l : List (String × Bytes)) (r : Bytes) :
    decEntriesAux l.length (l.flatMap encEntry ++ r) = some (l, r) := by
  induction l with
  | nil => simp [decEntriesAux]
  | cons e es ih =>
    simp only [List.length_cons, List.flatMap_cons, decEntriesAux, List.append_assoc,
      decEntry_encEntry, ih]

lemma decEntryList_enc (l : List (String × Bytes)) (r : Bytes) :
    decEntryList (encEntryList l ++ r) = some (l, r) := by
  simp only [encEntryList, List.cons_append, decEntryList, decEntriesAux_enc]

lemma decodeArchive_encodeArchive (m : Manifest) (gs fs : List (String × Bytes)) :
    decodeArchive (encodeArchive m gs fs) = some (m, gs, fs) := by
  have hfs : decEntryList (encEntryList fs) = some (fs, []) := by
    rw [← List.append_nil (encEntryList fs)]
    exact decEntryList_enc fs []
  simp only [encodeArchive, decodeArchive, decStr_encStr, decEntryList_enc, hfs,
    if_true]

/-! ## Helper lemmas: pack / unpack -/

lemma manifestOf_canonDir (b : BundleDirectory) :
    manifestOf (canonDir b) = manifestOf b := by
  simp only [manifestOf, canonDir, sortEntries_idem]

lemma unpack_pack (b : BundleDirectory) : unpack (pack b) = .ok (canonDir b) := by
  unfold pack unpack
  rw [decodeArchive_encodeArchive]
  dsimp only
  rw [if_pos ⟨rfl, rfl, rfl⟩]
  rfl

lemma unpack_error_corrupt {b : Bytes} {e : BundleError} (h : unpack b = .error e) :
    e = .archiveCorrupt := by
  unfold unpack at h
  rcases hd : decodeArchive b with _ | ⟨m, gs, fs⟩
  · rw [hd] at h
    cases h
    rfl
  · rw [hd] at h
    dsimp only at h
    by_cases hv : verifyArchive m gs fs
    · rw [if_pos hv] at h; cases h
    · rw [if_neg hv] at h; cases h; rfl

lemma unpack_ok_inv {b : Bytes} {dir : BundleDirectory} (h : unpack b = .ok dir) :
    ∃ m gs fs, decodeArchive b = some (m, gs, fs) ∧ verifyArchive m gs fs ∧
      dir = ⟨m.bid, m.version, gs, fs⟩ := by
  unfold unpack at h
  rcases hd : decodeArchive b with _ | ⟨m, gs, fs⟩
  · rw [hd] at h; cases h
  · rw [hd] at h
    dsimp only at h
    by_cases hv : verifyArchive m gs fs
    · rw [if_pos hv] at h
      cases h
      exact ⟨m, gs, fs, rfl, hv, rfl⟩
    · rw [if_neg hv] at h; cases h

lemma tampered_verify_fails {l : List (String × Bytes)} {i p v : Nat} {n : String}
    {ct : Bytes} (hi : i < l.length) (hget : l.get ⟨i, hi⟩ = (n, ct))
    (hp : p < ct.length) (hv : v ≠ ct.get ⟨p, hp⟩) :
    l.map hashEntry ≠ (l.set i (n, ct.set p v)).map hashEntry := by
  intro heq
  rw [List.map_set] at heq
  have hlen : i < (l.map hashEntry).length := by simpa using hi
  have hq : (l.map hashEntry)[i]? =
      ((l.map hashEntry).set i (hashEntry (n, ct.set p v)))[i]? := by
    rw [← heq]
  rw [List.getElem?_set_self hlen] at hq
  rw [List.getElem?_map] at hq
  have hgo : l[i]? = some (n, ct) := by
    rw [List.getElem?_eq_getElem hi]
    have hg2 : l[i] = (n, ct) := by rw [← hget]; rfl
    rw [hg2]
  rw [hgo] at hq
  have hpair : hashEntry (n, ct) = hashEntry (n, ct.set p v) := by
    injection hq
  have hcs : ct = ct.set p v := congrArg Prod.snd hpair
  have hplen : p < (ct.set p v).length := by simpa using hp
  have hvv : (ct.set p v)[p] = v := List.getElem_set_self hplen
  have h1 : ct[p]? = some v := by
    rw [hcs, List.getElem?_eq_getElem hplen, hvv]
  have h2 : ct[p]? = some (ct.get ⟨p, hp⟩) := by
    rw [List.getElem?_eq_getElem hp]
    rfl
  rw [h1] at h2
  exact hv (Option.some.inj h2)

lemma listMax_nil_iff {l : List Nat} : listMax l = none ↔ l = [] := by
  cases l with
  | nil => simp [listMax]
  | cons n rest =>
    simp only [listMax]
    rcases listMax rest with _ | m <;> simp

lemma listMax_spec {l : List Nat} {v : Nat} (h : listMax l = some v) :
    v ∈ l ∧ ∀ w ∈ l, w ≤ v := by
  induction l generalizing v with
  | nil => cases h
  | cons n rest ih =>
    unfold listMax at h
    rcases hr : listMax rest with _ | m
    · rw [hr] at h
      cases h
      have hnil : rest = [] := listMax_nil_iff.mp hr
      subst hnil
      exact ⟨List.mem_cons_self _ _, by intro w hw; rcases List.mem_cons.mp hw with rfl | hw2
        <;> first | exact le_refl _ | cases hw2⟩
    · rw [hr] at h
      cases h
      rcases ih hr with ⟨hm, hall⟩
      constructor
      · rcases Nat.le_total n m with hle | hle
        · have hmx : Nat.max n m = m := Nat.max_eq_right hle
          rw [hmx]
          exact List.mem_cons_of_mem _ hm
        · have hmx : Nat.max n m = n := Nat.max_eq_left hle
          rw [hmx]
          exact List.mem_cons_self _ _
      · intro w hw
        rcases List.mem_cons.mp hw with rfl | hw2
        · exact Nat.le_max_left _ _
        · exact le_trans (hall w hw2) (Nat.le_max_right _ _)

/-! ## Helper lemmas: the DFS resolver -/

/-- Modelled from the spec: the shape facts a successful DFS call preserves:
the visiting stack is restored, and the finished list only grows, by keys
that were white beforehand. -/
def DfsShape (st st2 : DfsSt) : Prop :=
  st2.gray = st.gray ∧
  ∃ ext, st2.out = ext ++ st.out ∧ ∀ x ∈ ext, x ∉ st.out ∧ x ∉ st.gray

/-- Modelled from the spec: the DFS state invariant: the finished list is in
reverse topological order, has no duplicates, and is disjoint from the
visiting stack. -/
def DfsInv (g : Key → List Key) (st : DfsSt) : Prop :=
  TopoOut g st.out ∧ st.out.Nodup ∧ ∀ x ∈ st.out, x ∉ st.gray

lemma dfsShape_refl (st : DfsSt) : DfsShape st st :=
  ⟨rfl, [], rfl, by simp⟩

lemma dfsFoldAux_shape {f : Key → DfsSt → Except ResolveErr DfsSt}
    (hf : ∀ c st st2, f c st = .ok st2 → DfsShape st st2) :
    ∀ cs st st2, dfsFoldAux f cs st = .ok st2 → DfsShape st st2 := by
  intro cs
  induction cs with
  | nil =>
    intro st st2 h
    cases h
    exact dfsShape_refl st
  | cons c cs ih =>
    intro st st2 h
    unfold dfsFoldAux at h
    rcases hc : f c st with e | st1
    · rw [hc] at h; exact Except.noConfusion h
    · rw [hc] at h
      dsimp only at h
      obtain ⟨hg1, ext1, hout1, hext1⟩ := hf c st st1 hc
      obtain ⟨hg2, ext2, hout2, hext2⟩ := ih st1 st2 h
      refine ⟨hg2.trans hg1, ext2 ++ ext1, ?_, ?_⟩
      · rw [hout2, hout1, List.append_assoc]
      · intro x hx
        rcases List.mem_append.mp hx with hx2 | hx1
        · have h2 := hext2 x hx2
          rw [hout1] at h2
          rw [hg1] at h2
          exact ⟨fun hmem => h2.1 (List.mem_append_right _ hmem), h2.2⟩
        · exact hext1 x hx1

lemma dfsVisit_shape (g : Key → List Key) :
    ∀ fuel k st st2, dfsVisit g fuel k st = .ok st2 → DfsShape st st2 := by
  intro fuel
  induction fuel with
  | zero => intro k st st2 h; exact Except.noConfusion h
  | succ fuel ih =>
    intro k st st2 h
    unfold dfsVisit at h
    by_cases hko : k ∈ st.out
    · rw [if_pos hko] at h
      cases h
      exact dfsShape_refl st
    · rw [if_neg hko] at h
      by_cases hkg : k ∈ st.gray
      · rw [if_pos hkg] at h; exact Except.noConfusion h
      · rw [if_neg hkg] at h
        rcases hfold : dfsFoldAux (dfsVisit g fuel) (g k) ⟨k :: st.gray, st.out⟩
          with e | stf
        · rw [hfold] at h; exact Except.noConfusion h
        · rw [hfold] at h
          dsimp only at h
          cases h
          obtain ⟨hg, ext, hout, hext⟩ :=
            dfsFoldAux_shape (fun c s s2 => ih c s s2) _ _ _ hfold
          refine ⟨rfl, k :: ext, ?_, ?_⟩
          · show k :: stf.out = k :: ext ++ st.out
            rw [hout]
            rfl
          · intro x hx
            rcases List.mem_cons.mp hx with rfl | hxe
            · exact ⟨hko, hkg⟩
            · have h2 := hext x hxe
              exact ⟨h2.1, fun hmem => h2.2 (List.mem_cons_of_mem _ hmem)⟩

lemma dfsFoldAux_good {g : Key → List Key} {f : Key → DfsSt → Except ResolveErr DfsSt}
    (hshape : ∀ c st st2, f c st = .ok st2 → DfsShape st st2)
    (hgood : ∀ c st st2, f c st = .ok st2 → DfsInv g st → DfsInv g st2 ∧ c ∈ st2.out) :
    ∀ cs st st2, dfsFoldAux f cs st = .ok st2 → DfsInv g st →
      DfsInv g st2 ∧ ∀ c ∈ cs, c ∈ st2.out := by
  intro cs
  induction cs with
  | nil =>
    intro st st2 h hinv
    cases h
    exact ⟨hinv, by simp⟩
  | cons c cs ih =>
    intro st st2 h hinv
    unfold dfsFoldAux at h
    rcases hc : f c st with e | st1
    · rw [hc] at h; exact Except.noConfusion h
    · rw [hc] at h
      dsimp only at h
      obtain ⟨hinv1, hcmem⟩ := hgood c st st1 hc hinv
      obtain ⟨hinv2, hall⟩ := ih st1 st2 h hinv1
      obtain ⟨_, ext, hout, _⟩ := dfsFoldAux_shape hshape cs st1 st2 h
      refine ⟨hinv2, ?_⟩
      intro x hx
      rcases List.mem_cons.mp hx with rfl | hxs
      · rw [hout]
        exact List.mem_append_right _ hcmem
      · exact hall x hxs

lemma dfsVisit_good (g : Key → List Key) :
    ∀ fuel k st st2, dfsVisit g fuel k st = .ok st2 → DfsInv g st →
      DfsInv g st2 ∧ k ∈ st2.out := by
  intro fuel
  induction fuel with
  | zero => intro k st st2 h; exact Except.noConfusion h
  | succ fuel ih =>
    intro k st st2 h hinv
    unfold dfsVisit at h
    by_cases hko : k ∈ st.out
    · rw [if_pos hko] at h
      cases h
      exact ⟨hinv, hko⟩
    · rw [if_neg hko] at h
      by_cases hkg : k ∈ st.gray
      · rw [if_pos hkg] at h; exact Except.noConfusion h
      · rw [if_neg hkg] at h
        rcases hfold : dfsFoldAux (dfsVisit g fuel) (g k) ⟨k :: st.gray, st.out⟩
          with e | stf
        · rw [hfold] at h; exact Except.noConfusion h
        · rw [hfold] at h
          dsimp only at h
          cases h
          have hinv1 : DfsInv g ⟨k :: st.gray, st.out⟩ := by
            refine ⟨hinv.1, hinv.2.1, ?_⟩
            intro x hx
            have hx2 := hinv.2.2 x hx
            intro hmem
            rcases List.mem_cons.mp hmem with rfl | hmem2
            · exact hko hx
            · exact hx2 hmem2
          obtain ⟨hinvf, hchildren⟩ :=
            dfsFoldAux_good (fun c s s2 => dfsVisit_shape g fuel c s s2)
              (fun c s s2 => ih c s s2) _ _ _ hfold hinv1
          obtain ⟨hg, ext, hout, hext⟩ :=
            dfsFoldAux_shape (fun c s s2 => dfsVisit_shape g fuel c s s2) _ _ _ hfold
          have hknotf : k ∉ stf.out := by
            rw [hout]
            intro hmem
            rcases List.mem_append.mp hmem with hmem1 | hmem2
            · exact (hext k hmem1).2 (List.mem_cons_self _ _)
            · exact hko hmem2
          refine ⟨⟨⟨hchildren, hinvf.1⟩, ?_, ?_⟩, List.mem_cons_self _ _⟩
          · exact List.nodup_cons.mpr ⟨hknotf, hinvf.2.1⟩
          · intro x hx
            rcases List.mem_cons.mp hx with rfl | hx2
            · exact hkg
            · have h3 := hinvf.2.2 x hx2
              rw [hg] at h3
              intro hmem
              exact h3 (List.mem_cons_of_mem _ hmem)

/-! ## Helper lemmas: fuel sufficiency of the DFS embedding -/

lemma length_filter_split {A : Type} [DecidableEq A] (p : A → Bool) (k : A) :
    ∀ (uni : List A), uni.Nodup → k ∈ uni → p k = true →
      (uni.filter p).length = (uni.filter fun x => decide (x ≠ k) && p x).length + 1 := by
  intro uni
  induction uni with
  | nil => intro _ hk; cases hk
  | cons a t ih =>
    intro hnd hk hpk
    rcases List.mem_cons.mp hk with rfl | hkt
    · have hknt : k ∉ t := (List.nodup_cons.mp hnd).1
      have hrest : t.filter (fun x => !decide (x = k) && p x) = t.filter p := by
        apply List.filter_congr
        intro x hx
        have hxk : x ≠ k := fun h => hknt (h ▸ hx)
        simp [hxk]
      simp [List.filter_cons, hpk, hrest]
    · have hak : a ≠ k := fun h => (List.nodup_cons.mp hnd).1 (h ▸ hkt)
      have hnd2 : t.Nodup := (List.nodup_cons.mp hnd).2
      rw [List.filter_cons, List.filter_cons]
      have hqa : (decide (a ≠ k) && p a) = p a := by simp [hak]
      rw [hqa]
      cases hpa : p a with
      | false => simpa using ih hnd2 hkt hpk
      | true =>
        simp only [if_true]
        have := ih hnd2 hkt hpk
        simp only [List.length_cons]
        omega

lemma whiteCount_mono (uni : List Key) {st st2 : DfsSt} (h : DfsShape st st2) :
    whiteCount uni st2 ≤ whiteCount uni st := by
  obtain ⟨hg, ext, hout, _⟩ := h
  unfold whiteCount
  have hsub : (uni.filter fun x => decide (x ∉ st2.gray) && decide (x ∉ st2.out)).Sublist
      (uni.filter fun x => decide (x ∉ st.gray) && decide (x ∉ st.out)) := by
    apply List.monotone_filter_right
    intro a ha
    rw [Bool.and_eq_true, decide_eq_true_iff, decide_eq_true_iff] at ha
    rw [Bool.and_eq_true, decide_eq_true_iff, decide_eq_true_iff]
    rw [hg] at ha
    refine ⟨ha.1, ?_⟩
    intro hmem
    exact ha.2 (by rw [hout]; exact List.mem_append_right _ hmem)
  exact hsub.length_le

lemma whiteCount_push {uni : List Key} {k : Key} {st : DfsSt} (hnd : uni.Nodup)
    (hk : k ∈ uni) (hko : k ∉ st.out) (hkg : k ∉ st.gray) :
    whiteCount uni ⟨k :: st.gray, st.out⟩ + 1 = whiteCount uni st := by
  unfold whiteCount
  have hpk : (decide (k ∉ st.gray) && decide (k ∉ st.out)) = true := by
    simp [hko, hkg]
  have hsplit : (uni.filter fun x => decide (x ∉ st.gray) && decide (x ∉ st.out)).length =
      (uni.filter fun x =>
        decide (x ≠ k) && (decide (x ∉ st.gray) && decide (x ∉ st.out))).length + 1 :=
    length_filter_split (fun x => decide (x ∉ st.gray) && decide (x ∉ st.out)) k uni hnd hk hpk
  have hcongr : (uni.filter fun x =>
      decide (x ∉ (DfsSt.mk (k :: st.gray) st.out).gray) &&
        decide (x ∉ (DfsSt.mk (k :: st.gray) st.out).out)) =
      uni.filter fun x =>
        decide (x ≠ k) && (decide (x ∉ st.gray) && decide (x ∉ st.out)) := by
    apply List.filter_congr
    intro x _
    by_cases h1 : x = k
    · subst h1
      simp
    · by_cases h2 : x ∈ st.gray
      · simp [h1, h2]
      · by_cases h3 : x ∈ st.out <;> simp [h1, h2, h3]
  rw [hcongr]
  omega

lemma dfsVisit_no_fuel {g : Key → List Key} {uni : List Key}
    (hU : ∀ x, ∀ d ∈ g x, d ∈ uni) (hnd : uni.Nodup) :
    ∀ fuel k st, k ∈ uni → whiteCount uni st < fuel →
      dfsVisit g fuel k st ≠ .error .depthExhausted := by
  intro fuel
  induction fuel with
  | zero => intro k st _ hw; exact absurd hw (Nat.not_lt_zero _)
  | succ fuel ih =>
    intro k st hk hw h
    unfold dfsVisit at h
    by_cases hko : k ∈ st.out
    · rw [if_pos hko] at h; exact Except.noConfusion h
    · rw [if_neg hko] at h
      by_cases hkg : k ∈ st.gray
      · rw [if_pos hkg] at h
        have h2 := Except.error.inj h
        exact ResolveErr.noConfusion h2
      · rw [if_neg hkg] at h
        have hw1 : whiteCount uni ⟨k :: st.gray, st.out⟩ < fuel := by
          have := whiteCount_push hnd hk hko hkg
          omega
        have hfoldne :
            ∀ cs st1, (∀ c ∈ cs, c ∈ uni) → whiteCount uni st1 < fuel →
              dfsFoldAux (dfsVisit g fuel) cs st1 ≠ .error .depthExhausted := by
          intro cs
          induction cs with
          | nil => intro st1 _ _ hcc; exact Except.noConfusion hcc
          | cons c cs ihc =>
            intro st1 hcs hw2 hcc
            unfold dfsFoldAux at hcc
            rcases hc : dfsVisit g fuel c st1 with e | stc
            · rw [hc] at hcc
              have he := Except.error.inj hcc
              subst he
              exact ih c st1 (hcs c (List.mem_cons_self _ _)) hw2 hc
            · rw [hc] at hcc
              dsimp only at hcc
              have hmono := whiteCount_mono uni (dfsVisit_shape g fuel c st1 stc hc)
              exact ihc stc (fun x hx => hcs x (List.mem_cons_of_mem _ hx))
                (lt_of_le_of_lt hmono hw2) hcc
        rcases hfold : dfsFoldAux (dfsVisit g fuel) (g k) ⟨k :: st.gray, st.out⟩
          with e | stf
        · rw [hfold] at h
          have he := Except.error.inj h
          subst he
          exact hfoldne (g k) ⟨k :: st.gray, st.out⟩ (hU k) hw1 hfold
        · rw [hfold] at h
          exact Except.noConfusion h

/-! ## Helper lemmas: cycle soundness of the DFS error -/

lemma reaches_trans {g : Key → List Key} {a b c : Key} (h1 : Reaches g a b)
    (h2 : Reaches g b c) : Reaches g a c := by
  induction h1 with
  | refl => exact h2
  | step hmem _ ih => exact Reaches.step hmem (ih h2)

lemma chain_mem_reaches {g : Key → List Key} :
    ∀ (t : List Key) (h0 : Key), List.Chain' (fun a b => a ∈ g b) (h0 :: t) →
      ∀ k, k ∈ h0 :: t → Reaches g k h0 := by
  intro t
  induction t with
  | nil =>
    intro h0 _ k hk
    rcases List.mem_cons.mp hk with rfl | hk2
    · exact Reaches.refl k
    · cases hk2
  | cons h1 t ih =>
    intro h0 hchain k hk
    have hrel : h0 ∈ g h1 := List.chain'_cons.mp hchain |>.1
    have hrest : List.Chain' (fun a b => a ∈ g b) (h1 :: t) :=
      List.chain'_cons.mp hchain |>.2
    rcases List.mem_cons.mp hk with rfl | hk2
    · exact Reaches.refl k
    · have hkh1 : Reaches g k h1 := ih h1 hrest k hk2
      exact reaches_trans hkh1 (Reaches.step hrel (Reaches.refl h0))

lemma gray_cycle {g : Key → List Key} {st : DfsSt} {k : Key} (hchain : GrayChain g st)
    (hcall : CallOk g k st) (hmem : k ∈ st.gray) : ReachesPlus g k k := by
  rcases hcall with hnil | ⟨h0, t, heq, hkh⟩
  · rw [hnil] at hmem; cases hmem
  · unfold GrayChain at hchain
    rw [heq] at hmem hchain
    have hreach : Reaches g k h0 := chain_mem_reaches t h0 hchain k hmem
    cases hreach with
    | refl => exact ⟨k, hkh, Reaches.refl k⟩
    | step hc hr =>
      exact ⟨_, hc, reaches_trans hr (Reaches.step hkh (Reaches.refl k))⟩

lemma dfsVisit_cyclic {g : Key → List Key} :
    ∀ fuel k st kc s, dfsVisit g fuel k st = .error (.cyclic kc s) →
      GrayChain g st → CallOk g k st → ReachesPlus g kc kc := by
  intro fuel
  induction fuel with
  | zero =>
    intro k st kc s h
    have h2 := Except.error.inj h
    exact ResolveErr.noConfusion h2
  | succ fuel ih =>
    intro k st kc s h hchain hcall
    unfold dfsVisit at h
    by_cases hko : k ∈ st.out
    · rw [if_pos hko] at h; exact Except.noConfusion h
    · rw [if_neg hko] at h
      by_cases hkg : k ∈ st.gray
      · rw [if_pos hkg] at h
        have h2 := Except.error.inj h
        have hkc : kc = k := by
          injection h2 with ha hb
          exact ha.symm
        subst hkc
        exact gray_cycle hchain hcall hkg
      · rw [if_neg hkg] at h
        have hchain1 : GrayChain g ⟨k :: st.gray, st.out⟩ := by
          unfold GrayChain at hchain ⊢
          rcases hcall with hnil | ⟨h0, t, heq, hkh⟩
          · rw [hnil]
            exact List.chain'_singleton k
          · rw [heq] at hchain ⊢
            exact List.chain'_cons.mpr ⟨hkh, hchain⟩
        have hcallkids : ∀ c ∈ g k, CallOk g c ⟨k :: st.gray, st.out⟩ := by
          intro c hc
          exact Or.inr ⟨k, st.gray, rfl, hc⟩
        have hfoldcyc :
            ∀ cs st1, dfsFoldAux (dfsVisit g fuel) cs st1 = .error (.cyclic kc s) →
              GrayChain g st1 → (∀ c ∈ cs, CallOk g c st1) → ReachesPlus g kc kc := by
          intro cs
          induction cs with
          | nil => intro st1 hcc; exact Except.noConfusion hcc
          | cons c cs ihc =>
            intro st1 hcc hchain2 hcalls
            unfold dfsFoldAux at hcc
            rcases hc : dfsVisit g fuel c st1 with e | stc
            · rw [hc] at hcc
              have he := Except.error.inj hcc
              subst he
              exact ih c st1 kc s hc hchain2 (hcalls c (List.mem_cons_self _ _))
            · rw [hc] at hcc
              dsimp only at hcc
              obtain ⟨hg, _, _, _⟩ := dfsVisit_shape g fuel c st1 stc hc
              have hchain3 : GrayChain g stc := by
                unfold GrayChain at hchain2 ⊢
                rw [hg]
                exact hchain2
              have hcalls3 : ∀ x ∈ cs, CallOk g x stc := by
                intro x hx
                have := hcalls x (List.mem_cons_of_mem _ hx)
                unfold CallOk at this ⊢
                rw [hg]
                exact this
              exact ihc stc hcc hchain3 hcalls3
        rcases hfold : dfsFoldAux (dfsVisit g fuel) (g k) ⟨k :: st.gray, st.out⟩
          with e | stf
        · rw [hfold] at h
          have he := Except.error.inj h
          subst he
          exact hfoldcyc (g k) ⟨k :: st.gray, st.out⟩ hfold hchain1 hcallkids
        · rw [hfold] at h
          dsimp only at h
          exact Except.noConfusion h

/-! ## Helper lemmas: consequences of the topological invariant -/

lemma topoOut_closed {g : Key → List Key} :
    ∀ l, TopoOut g l → ∀ x ∈ l, ∀ d ∈ g x, d ∈ l := by
  intro l
  induction l with
  | nil => intro _ x hx; cases hx
  | cons k rest ih =>
    intro ht x hx d hd
    obtain ⟨hdeps, htr⟩ := ht
    rcases List.mem_cons.mp hx with rfl | hx2
    · exact List.mem_cons_of_mem _ (hdeps d hd)
    · exact List.mem_cons_of_mem _ (ih htr x hx2 d hd)

lemma topoOut_reaches {g : Key → List Key} {l : List Key} (ht : TopoOut g l) {x y : Key}
    (hx : x ∈ l) (hr : Reaches g x y) : y ∈ l := by
  induction hr with
  | refl => exact hx
  | step hmem _ ih => exact ih (topoOut_closed _ ht _ hx _ hmem)

lemma topoOut_no_cycle {g : Key → List Key} :
    ∀ l, TopoOut g l → l.Nodup → ∀ x ∈ l, ¬ ReachesPlus g x x := by
  intro l
  induction l with
  | nil => intro _ _ x hx; cases hx
  | cons k rest ih =>
    intro ht hnd x hx
    obtain ⟨hdeps, htr⟩ := ht
    have hknr : k ∉ rest := (List.nodup_cons.mp hnd).1
    have hndr : rest.Nodup := (List.nodup_cons.mp hnd).2
    rcases List.mem_cons.mp hx with rfl | hx2
    · rintro ⟨c, hc, hr⟩
      have hcr : c ∈ rest := hdeps c hc
      exact hknr (topoOut_reaches htr hcr hr)
    · exact ih htr hndr x hx2

lemma snoc_split {A : Type} {al : List A} {a : A} {l1 : List A} {x : A} {l2 : List A}
    (h : al ++ [a] = l1 ++ x :: l2) :
    (l1 = al ∧ x = a ∧ l2 = []) ∨ ∃ l2b, al = l1 ++ x :: l2b ∧ l2 = l2b ++ [a] := by
  rcases List.eq_nil_or_concat l2 with rfl | ⟨l2b, b, rfl⟩
  · left
    have hlen : al.length = l1.length := by
      have h2 := congrArg List.length h
      simp at h2
      omega
    obtain ⟨h1, h2⟩ := List.append_inj h hlen
    refine ⟨h1.symm, ?_, rfl⟩
    injection h2 with h3 _
    exact h3.symm
  · right
    rw [List.concat_eq_append] at h
    have h2 : al ++ [a] = (l1 ++ x :: l2b) ++ [b] := by
      rw [h]
      simp
    have hlen : al.length = (l1 ++ x :: l2b).length := by
      have h3 := congrArg List.length h2
      simp only [List.length_append, List.length_cons] at h3 ⊢
      omega
    obtain ⟨h4, h5⟩ := List.append_inj h2 hlen
    have hab : a = b := by simpa using h5
    subst hab
    exact ⟨l2b, h4, List.concat_eq_append _ _⟩

lemma topoOut_leavesFirst {g : Key → List Key} :
    ∀ l, TopoOut g l → LeavesFirst g l.reverse := by
  intro l
  induction l with
  | nil =>
    intro _ l1 k l2 h
    rw [List.reverse_nil] at h
    exact absurd h.symm (List.append_ne_nil_of_right_ne_nil _ (by simp))
  | cons k0 rest ih =>
    intro ht l1 x l2 h
    obtain ⟨hdeps, htr⟩ := ht
    rw [List.reverse_cons] at h
    rcases snoc_split h with ⟨hl1, hx, _⟩ | ⟨l2b, hsplit, _⟩
    · subst hl1
      subst hx
      intro d hd
      exact List.mem_reverse.mpr (hdeps d hd)
    · exact ih htr l1 x l2b hsplit

lemma leavesFirst_take {g : Key → List Key} {l : List Key} (hlf : LeavesFirst g l) :
    ∀ n, ∀ x ∈ l.take n, ∀ d ∈ g x, d ∈ l.take n := by
  intro n x hx d hd
  obtain ⟨s, t, hst⟩ := List.append_of_mem hx
  have hl : l = s ++ x :: (t ++ l.drop n) := by
    conv_lhs => rw [← List.take_append_drop n l]
    rw [hst]
    simp
  have hds : d ∈ s := hlf s x (t ++ l.drop n) hl d hd
  rw [hst]
  exact List.mem_append_left _ hds

/-! ## Helper lemmas: the resolver entry point -/

lemma adjLookup_subset {adj : DepGraph} :
    ∀ k, ∀ d ∈ adjLookup adj k, d ∈ adj.flatMap Prod.snd := by
  induction adj with
  | nil => intro k d hd; cases hd
  | cons e rest ih =>
    intro k d hd
    unfold adjLookup at hd
    by_cases he : e.1 = k
    · rw [if_pos he] at hd
      exact List.mem_flatMap.mpr ⟨e, List.mem_cons_self _ _, hd⟩
    · rw [if_neg he] at hd
      have := ih k d hd
      rw [List.mem_flatMap] at this
      obtain ⟨a, ha, hda⟩ := this
      exact List.mem_flatMap.mpr ⟨a, List.mem_cons_of_mem _ ha, hda⟩

lemma adjLookup_mem_universe (adj : DepGraph) (root : Key) :
    ∀ k, ∀ d ∈ adjLookup adj k, d ∈ adjUniverse adj root := by
  intro k d hd
  unfold adjUniverse adjKeys
  rw [List.mem_dedup]
  exact List.mem_cons_of_mem _ (List.mem_append_right _ (adjLookup_subset k d hd))

lemma root_mem_universe (adj : DepGraph) (root : Key) : root ∈ adjUniverse adj root := by
  unfold adjUniverse
  rw [List.mem_dedup]
  exact List.mem_cons_self _ _

lemma universe_nodup (adj : DepGraph) (root : Key) : (adjUniverse adj root).Nodup :=
  List.nodup_dedup _

lemma dfsInv_init (g : Key → List Key) : DfsInv g ⟨[], []⟩ := by
  refine ⟨trivial, List.nodup_nil, ?_⟩
  intro x hx
  cases hx

lemma resolveDeps_ok_inv {adj : DepGraph} {root : Key} {l : List Key}
    (h : resolveDeps adj root = .ok l) :
    ∃ st, dfsVisit (adjLookup adj) ((adjUniverse adj root).length + 1) root ⟨[], []⟩ =
        .ok st ∧ l = st.out.reverse := by
  unfold resolveDeps at h
  rcases hres : dfsVisit (adjLookup adj) ((adjUniverse adj root).length + 1) root ⟨[], []⟩
    with e | st
  · rw [hres] at h; exact Except.noConfusion h
  · rw [hres] at h
    dsimp only at h
    exact ⟨st, rfl, (Except.ok.inj h).symm⟩

/-! ## Helper lemmas: the single-flight refresh discipline -/

lemma sfStep_request_cached {st : SFState} {c : Nat} {l : Listing}
    (hc : st.cached = some l) :
    sfStep st (.request c) = { st with delivered := (c, l) :: st.delivered } := by
  unfold sfStep
  rw [hc]

lemma sfStep_request_join {st : SFState} {c : Nat} {ws : List Nat}
    (hc : st.cached = none) (hf : st.inflight = some ws) :
    sfStep st (.request c) = { st with inflight := some (c :: ws) } := by
  unfold sfStep
  rw [hc, hf]

lemma sfStep_request_idle {st : SFState} {c : Nat}
    (hc : st.cached = none) (hf : st.inflight = none) :
    sfStep st (.request c) =
      { st with inflight := some [c], netCalls := st.netCalls + 1 } := by
  unfold sfStep
  rw [hc, hf]

lemma sfStep_complete_inflight {st : SFState} {l : Listing} {ws : List Nat}
    (hf : st.inflight = some ws) :
    sfStep st (.complete l) =
      { st with inflight := none, cached := some l,
                delivered := ws.map (fun c => (c, l)) ++ st.delivered } := by
  unfold sfStep
  rw [hf]

lemma sfStep_complete_idle {st : SFState} {l : Listing} (hf : st.inflight = none) :
    sfStep st (.complete l) = st := by
  unfold sfStep
  rw [hf]

lemma sfInv_init : SFInv sfInit := by
  refine ⟨by simp [sfInit], by simp [sfInit], ?_, ?_, by simp [sfInit], ?_⟩
  · intro h
    rcases h with h | h <;> simp [sfInit] at h
  · intro l h
    simp [sfInit] at h
  · intro h
    simp [sfInit] at h

lemma sfStep_inv {st : SFState} (h : SFInv st) (ev : SFEvent) : SFInv (sfStep st ev) := by
  obtain ⟨h1, h2, h3, h4, h5, h6⟩ := h
  cases ev with
  | request c =>
    rcases hc : st.cached with _ | l
    · rcases hf : st.inflight with _ | ws
      · rw [sfStep_request_idle hc hf]
        obtain ⟨hz, hdel⟩ := h2 ⟨hf, hc⟩
        refine ⟨by simp [hz], by simp, fun _ => by simp [hz], ?_, by simp [hc, hdel], ?_⟩
        · intro l2 hl2
          simp [hc] at hl2
        · intro _
          simpa using hc
      · rw [sfStep_request_join hc hf]
        refine ⟨h1, by simp, fun _ => h3 (Or.inl (by simp [hf])), ?_, by simp [hc, h5 hc], ?_⟩
        · intro l2 hl2
          simp [hc] at hl2
        · intro _
          simpa using hc
    · rw [sfStep_request_cached hc]
      refine ⟨h1, ?_, fun _ => h3 (Or.inr (by simp [hc])), ?_, ?_, ?_⟩
      · intro hpre
        simp [hc] at hpre
      · intro l2 hl2 d hd
        have hll : l2 = l := by
          have hcc2 : st.cached = some l2 := hl2
          rw [hc] at hcc2
          exact (Option.some.inj hcc2).symm
        rcases List.mem_cons.mp hd with rfl | hd2
        · exact hll.symm
        · exact (h4 l hc d hd2).trans hll.symm
      · intro hcc
        simp [hc] at hcc
      · intro hfl
        have hco := h6 (by simpa using hfl)
        simp [hc] at hco
  | complete l =>
    rcases hf : st.inflight with _ | ws
    · rw [sfStep_complete_idle hf]
      exact ⟨h1, h2, h3, h4, h5, h6⟩
    · rw [sfStep_complete_inflight hf]
      have hcached : st.cached = none := h6 (by simp [hf])
      have hdel : st.delivered = [] := h5 hcached
      have hcalls : st.netCalls = 1 := h3 (Or.inl (by simp [hf]))
      refine ⟨h1, by simp, fun _ => hcalls, ?_, by simp, by simp⟩
      intro l2 hl2 d hd
      simp only [Option.some.injEq] at hl2
      subst hl2
      simp only [hdel, List.append_nil] at hd
      rw [List.mem_map] at hd
      obtain ⟨a, _, ha⟩ := hd
      rw [← ha]

lemma sfFold_inv : ∀ (evs : List SFEvent) (st : SFState), SFInv st →
    SFInv (evs.foldl sfStep st) := by
  intro evs
  induction evs with
  | nil => intro st h; exact h
  | cons ev evs ih =>
    intro st h
    exact ih _ (sfStep_inv h ev)

lemma sfRun_inv (evs : List SFEvent) : SFInv (sfRun evs) :=
  sfFold_inv evs sfInit sfInv_init

lemma sfStep_calls_mono (st : SFState) (ev : SFEvent) :
    st.netCalls ≤ (sfStep st ev).netCalls := by
  cases ev with
  | request c =>
    rcases hc : st.cached with _ | l
    · rcases hf : st.inflight with _ | ws
      · rw [sfStep_request_idle hc hf]
        simp
      · rw [sfStep_request_join hc hf]
    · rw [sfStep_request_cached hc]
  | complete l =>
    rcases hf : st.inflight with _ | ws
    · rw [sfStep_complete_idle hf]
    · rw [sfStep_complete_inflight hf]

lemma sfFold_calls_mono : ∀ (evs : List SFEvent) (st : SFState),
    st.netCalls ≤ (evs.foldl sfStep st).netCalls := by
  intro evs
  induction evs with
  | nil => intro st; exact le_refl _
  | cons ev evs ih =>
    intro st
    exact le_trans (sfStep_calls_mono st ev) (ih (sfStep st ev))

lemma sfStep_request_calls {st : SFState} (h : SFInv st) (c : Nat) :
    (sfStep st (.request c)).netCalls = 1 := by
  obtain ⟨_, h2, h3, _, _, _⟩ := h
  rcases hc : st.cached with _ | l
  · rcases hf : st.inflight with _ | ws
    · rw [sfStep_request_idle hc hf]
      have := (h2 ⟨hf, hc⟩).1
      simp [this]
    · rw [sfStep_request_join hc hf]
      exact h3 (Or.inl (by simp [hf]))
  · rw [sfStep_request_cached hc]
    exact h3 (Or.inr (by simp [hc]))

lemma sfStep_serves (st : SFState) (c : Nat) : Served (sfStep st (.request c)) c := by
  rcases hc : st.cached with _ | l
  · rcases hf : st.inflight with _ | ws
    · rw [sfStep_request_idle hc hf]
      exact Or.inl ⟨[c], rfl, List.mem_singleton_self c⟩
    · rw [sfStep_request_join hc hf]
      exact Or.inl ⟨c :: ws, rfl, List.mem_cons_self _ _⟩
  · rw [sfStep_request_cached hc]
    exact Or.inr ⟨l, hc, List.mem_cons_self _ _⟩

lemma sfStep_preserves_served {st : SFState} {c : Nat} (hinv : SFInv st)
    (hs : Served st c) (ev : SFEvent) : Served (sfStep st ev) c := by
  cases ev with
  | request c2 =>
    rcases hc : st.cached with _ | l
    · rcases hf : st.inflight with _ | ws
      · rcases hs with ⟨ws0, hws0, _⟩ | ⟨l0, hl0, _⟩
        · rw [hf] at hws0
          exact Option.noConfusion hws0
        · rw [hc] at hl0
          exact Option.noConfusion hl0
      · rw [sfStep_request_join hc hf]
        rcases hs with ⟨ws0, hws0, hcw⟩ | ⟨l0, hl0, _⟩
        · rw [hf] at hws0
          have hww : ws = ws0 := Option.some.inj hws0
          subst hww
          exact Or.inl ⟨c2 :: ws, rfl, List.mem_cons_of_mem _ hcw⟩
        · rw [hc] at hl0
          exact Option.noConfusion hl0
    · rw [sfStep_request_cached hc]
      rcases hs with ⟨ws0, hws0, hcw⟩ | ⟨l0, hl0, hdel⟩
      · exact Or.inl ⟨ws0, hws0, hcw⟩
      · exact Or.inr ⟨l0, hl0, List.mem_cons_of_mem _ hdel⟩
  | complete l =>
    rcases hf : st.inflight with _ | ws
    · rw [sfStep_complete_idle hf]
      exact hs
    · rw [sfStep_complete_inflight hf]
      rcases hs with ⟨ws0, hws0, hcw⟩ | ⟨l0, hl0, _⟩
      · rw [hf] at hws0
        have hww : ws = ws0 := Option.some.inj hws0
        subst hww
        refine Or.inr ⟨l, rfl, List.mem_append_left _ ?_⟩
        exact List.mem_map.mpr ⟨c, hcw, rfl⟩
      · have hcn : st.cached = none := hinv.2.2.2.2.2 (by simp [hf])
        rw [hcn] at hl0
        exact Option.noConfusion hl0

lemma sfFold_preserves_served {c : Nat} :
    ∀ (evs : List SFEvent) (st : SFState), SFInv st → Served st c →
      Served (evs.foldl sfStep st) c := by
  intro evs
  induction evs with
  | nil => intro st _ hs; exact hs
  | cons ev evs ih =>
    intro st hinv hs
    exact ih _ (sfStep_inv hinv ev) (sfStep_preserves_served hinv hs ev)

lemma sfRun_served {evs : List SFEvent} {c : Nat} (hc : SFEvent.request c ∈ evs) :
    Served (sfRun evs) c := by
  obtain ⟨pre, post, hsplit⟩ := List.append_of_mem hc
  unfold sfRun
  rw [hsplit, List.foldl_append, List.foldl_cons]
  have hinvpre : SFInv (pre.foldl sfStep sfInit) := sfFold_inv pre sfInit sfInv_init
  exact sfFold_preserves_served post _ (sfStep_inv hinvpre (SFEvent.request c))
    (sfStep_serves (pre.foldl sfStep sfInit) c)

/-! ## Claim theorems -/

/-- Claim C1: for every bundle directory B, packing B to an archive and then
unpacking that archive yields a bundle directory whose content — every
captured graph file, included file, and manifest — is content-identical to B
(the entries are the same up to the canonical sorted order, each with
byte-identical contents, and the manifest is equal). -/
theorem claim1_pack_unpack_roundtrip (b : BundleDirectory) :
    unpack (pack b) = .ok (canonDir b) ∧
    (canonDir b).bid = b.bid ∧ (canonDir b).version = b.version ∧
    (canonDir b).graphs.Perm b.graphs ∧ (canonDir b).files.Perm b.files ∧
    manifestOf (canonDir b) = manifestOf b :=
  ⟨unpack_pack b, rfl, rfl, sortEntries_perm _, sortEntries_perm _, manifestOf_canonDir b⟩

/-- Claim C8: pack is deterministic — applied to logically identical content
(the same contexts and files with the same data, regardless of enumeration
order, with no repeated identifiers), it yields identical archive bytes,
because traversal sorts contexts and files by identifier/path. -/
theorem claim8_pack_deterministic (b1 b2 : BundleDirectory)
    (hid : b1.bid = b2.bid) (hver : b1.version = b2.version)
    (hg : b1.graphs.Perm b2.graphs) (hf : b1.files.Perm b2.files)
    (hgn : (b1.graphs.map Prod.fst).Nodup) (hfn : (b1.files.map Prod.fst).Nodup) :
    pack b1 = pack b2 := by
  have hge : sortEntries b1.graphs = sortEntries b2.graphs := sortEntries_eq_of_perm hg hgn
  have hfe : sortEntries b1.files = sortEntries b2.files := sortEntries_eq_of_perm hf hfn
  unfold pack manifestOf
  rw [hge, hfe, hid, hver]

/-- Witness for C8 at a concrete input: two enumeration orders of the same
content pack to identical bytes. -/
theorem claim8_pack_deterministic_witness :
    exDir.graphs.Perm exDirPermuted.graphs ∧ pack exDir = pack exDirPermuted :=
  ⟨by decide,
    claim8_pack_deterministic exDir exDirPermuted rfl rfl (by decide) (by decide)
      (by decide) (by decide)⟩

/-- Claim C2: unpacking verifies archive structure and every content hash
before publishing into the cache, atomically: on success the target key
receives the complete verified bundle in one step, and on any structure or
hash mismatch it fails with `ArchiveCorruptError` and the cache is unchanged
— in particular, an archive in which any single byte of a captured graph
file or file entry was flipped after packing fails with
`ArchiveCorruptError` and installs nothing. -/
theorem claim2_unpack_stage_verify_corruption :
    (∀ (cache : LocalCache) (b : Bytes),
      ((unpackInto cache b).1 = none →
        ∃ m gs fs, decodeArchive b = some (m, gs, fs) ∧ verifyArchive m gs fs ∧
          (unpackInto cache b).2 =
            ((m.bid, m.version), BundleDirectory.mk m.bid m.version gs fs) :: cache) ∧
      (∀ e, (unpackInto cache b).1 = some e →
        e = .archiveCorrupt ∧ (unpackInto cache b).2 = cache)) ∧
    (∀ (cache : LocalCache) (b : BundleDirectory) (i p v : Nat) (n : String) (ct : Bytes)
      (hi : i < (sortEntries b.graphs).length),
      (sortEntries b.graphs).get ⟨i, hi⟩ = (n, ct) →
      ∀ (hp : p < ct.length), v ≠ ct.get ⟨p, hp⟩ →
      unpackInto cache
        (encodeArchive (manifestOf b) ((sortEntries b.graphs).set i (n, ct.set p v))
          (sortEntries b.files)) = (some .archiveCorrupt, cache)) ∧
    (∀ (cache : LocalCache) (b : BundleDirectory) (i p v : Nat) (n : String) (ct : Bytes)
      (hi : i < (sortEntries b.files).length),
      (sortEntries b.files).get ⟨i, hi⟩ = (n, ct) →
      ∀ (hp : p < ct.length), v ≠ ct.get ⟨p, hp⟩ →
      unpackInto cache
        (encodeArchive (manifestOf b) (sortEntries b.graphs)
          ((sortEntries b.files).set i (n, ct.set p v))) = (some .archiveCorrupt, cache)) := by
  refine ⟨?_, ?_, ?_⟩
  · intro cache b
    constructor
    · intro hnone
      unfold unpackInto at hnone ⊢
      rcases hu : unpack b with e | dir
      · rw [hu] at hnone
        exact Option.noConfusion hnone
      · obtain ⟨m, gs, fs, hdec, hver, hdir⟩ := unpack_ok_inv hu
        subst hdir
        exact ⟨m, gs, fs, hdec, hver, rfl⟩
    · intro e he
      unfold unpackInto at he ⊢
      rcases hu : unpack b with e2 | dir
      · rw [hu] at he
        dsimp only at he
        have he2 : e2 = e := Option.some.inj he
        subst he2
        exact ⟨unpack_error_corrupt hu, rfl⟩
      · rw [hu] at he
        exact Option.noConfusion he
  · intro cache b i p v n ct hi hget hp hv
    have hfail : ¬ verifyArchive (manifestOf b)
        ((sortEntries b.graphs).set i (n, ct.set p v)) (sortEntries b.files) := by
      rintro ⟨_, hgh, _⟩
      exact tampered_verify_fails hi hget hp hv hgh
    unfold unpackInto unpack
    rw [decodeArchive_encodeArchive]
    dsimp only
    rw [if_neg hfail]
  · intro cache b i p v n ct hi hget hp hv
    have hfail : ¬ verifyArchive (manifestOf b) (sortEntries b.graphs)
        ((sortEntries b.files).set i (n, ct.set p v)) := by
      rintro ⟨_, _, hfh⟩
      exact tampered_verify_fails hi hget hp hv hfh
    unfold unpackInto unpack
    rw [decodeArchive_encodeArchive]
    dsimp only
    rw [if_neg hfail]

/-- Witness for C2 at concrete inputs: unpacking the intact archive of
`exDir` publishes it, and flipping one byte of a graph entry or of a file
entry makes unpacking fail with `ArchiveCorruptError`, leaving the cache
unchanged. -/
theorem claim2_unpack_stage_verify_corruption_witness :
    (∃ m gs fs, decodeArchive (pack exDir) = some (m, gs, fs) ∧ verifyArchive m gs fs ∧
      (unpackInto [] (pack exDir)).2 =
        ((m.bid, m.version), BundleDirectory.mk m.bid m.version gs fs) :: []) ∧
    unpackInto []
        (encodeArchive (manifestOf exDir)
          ((sortEntries exDir.graphs).set 0 ("ctxA", List.set [1] 0 9))
          (sortEntries exDir.files)) = (some .archiveCorrupt, []) ∧
    unpackInto []
        (encodeArchive (manifestOf exDir) (sortEntries exDir.graphs)
          ((sortEntries exDir.files).set 0 ("fileA", List.set [5] 0 6))) =
      (some .archiveCorrupt, []) :=
  ⟨(claim2_unpack_stage_verify_corruption.1 [] (pack exDir)).1 (by rfl),
    claim2_unpack_stage_verify_corruption.2.1 [] exDir 0 0 9 "ctxA" [1] (by decide)
      (by rfl) (by decide) (by decide),
    claim2_unpack_stage_verify_corruption.2.2 [] exDir 0 0 6 "fileA" [5] (by decide)
      (by rfl) (by decide) (by decide)⟩

/-- Claim C3: for every dependency graph whose walk from the root reaches a
cycle (including the minimal case A depends on B and B depends on A),
dependency resolution fails with `CyclicDependencyError` identifying a key
that lies on an actual cycle, and the fetcher installs no member of the
cycle (the installed set is returned unchanged). -/
theorem claim3_cycle_fails_resolution (adj : DepGraph) (root : Key)
    (installed : List Key)
    (hcyc : ∃ c, Reaches (adjLookup adj) root c ∧ ReachesPlus (adjLookup adj) c c) :
    ∃ kc s, resolveDeps adj root = .error (.cyclicDependency kc s) ∧
      ReachesPlus (adjLookup adj) kc kc ∧
      fetchAll adj root installed = (some (.cyclicDependency kc s), installed) := by
  rcases hres : dfsVisit (adjLookup adj) ((adjUniverse adj root).length + 1) root ⟨[], []⟩
    with e | st
  · cases e with
    | depthExhausted =>
      exfalso
      have hwc : whiteCount (adjUniverse adj root) ⟨[], []⟩ <
          (adjUniverse adj root).length + 1 :=
        Nat.lt_succ_of_le (List.length_filter_le _ _)
      exact dfsVisit_no_fuel (adjLookup_mem_universe adj root) (universe_nodup adj root)
        _ root ⟨[], []⟩ (root_mem_universe adj root) hwc hres
    | cyclic kc s =>
      have hplus : ReachesPlus (adjLookup adj) kc kc :=
        dfsVisit_cyclic _ root ⟨[], []⟩ kc s hres List.chain'_nil (Or.inl rfl)
      have hrd : resolveDeps adj root = .error (.cyclicDependency kc s) := by
        unfold resolveDeps
        rw [hres]
        rfl
      refine ⟨kc, s, hrd, hplus, ?_⟩
      unfold fetchAll
      rw [hrd]
  · exfalso
    obtain ⟨hinv, hroot⟩ :=
      dfsVisit_good (adjLookup adj) _ root ⟨[], []⟩ st hres (dfsInv_init _)
    obtain ⟨c, hrc, hcc⟩ := hcyc
    have hcmem : c ∈ st.out := topoOut_reaches hinv.1 hroot hrc
    exact topoOut_no_cycle st.out hinv.1 hinv.2.1 c hcmem hcc

/-- Witness for C3 at the minimal two-bundle cycle A→B→A. -/
theorem claim3_cycle_fails_resolution_witness :
    ∃ kc s, resolveDeps exAdjCyclic ("A", 1) = .error (.cyclicDependency kc s) ∧
      ReachesPlus (adjLookup exAdjCyclic) kc kc ∧
      fetchAll exAdjCyclic ("A", 1) [] = (some (.cyclicDependency kc s), []) :=
  claim3_cycle_fails_resolution exAdjCyclic ("A", 1) []
    ⟨("A", 1), Reaches.refl _,
      ("B", 1), by decide, Reaches.step (by decide) (Reaches.refl _)⟩

/-- Claim C6: for every acyclic dependency graph the resolver's output is a
topologically ordered list with leaves first — every bundle appears after
all bundles it depends on — it is closed under dependencies and contains the
root, and the fetcher installs in exactly that order, so each prefix of the
installation sequence is dependency-closed: at no point is a dependent
installed while one of its dependencies is missing. -/
theorem claim6_topological_install_order (adj : DepGraph) (root : Key)
    (order : List Key) (h : resolveDeps adj root = .ok order) :
    LeavesFirst (adjLookup adj) order ∧ order.Nodup ∧ root ∈ order ∧
    (∀ x ∈ order, ∀ d ∈ adjLookup adj x, d ∈ order) ∧
    (∀ n, ∀ x ∈ order.take n, ∀ d ∈ adjLookup adj x, d ∈ order.take n) ∧
    fetchAll adj root [] = (none, order) := by
  obtain ⟨st, hres, hL⟩ := resolveDeps_ok_inv h
  obtain ⟨hinv, hroot⟩ :=
    dfsVisit_good (adjLookup adj) _ root ⟨[], []⟩ st hres (dfsInv_init _)
  subst hL
  have hlf : LeavesFirst (adjLookup adj) st.out.reverse :=
    topoOut_leavesFirst st.out hinv.1
  refine ⟨hlf, List.nodup_reverse.mpr hinv.2.1, List.mem_reverse.mpr hroot, ?_, ?_, ?_⟩
  · intro x hx d hd
    exact List.mem_reverse.mpr
      (topoOut_closed st.out hinv.1 x (List.mem_reverse.mp hx) d hd)
  · exact leavesFirst_take hlf
  · unfold fetchAll
    rw [h]
    dsimp only
    have hfilter : st.out.reverse.filter (fun k => decide (k ∉ ([] : List Key))) =
        st.out.reverse := by
      apply List.filter_eq_self.mpr
      intro a _
      simp
    rw [hfilter]
    rw [List.nil_append]

/-- Witness for C6 at a concrete acyclic graph: A depends on B, and the
resolver orders B before A. -/
theorem claim6_topological_install_order_witness :
    resolveDeps exAdjAcyclic ("A", 1) = .ok [("B", 1), ("A", 1)] ∧
    (LeavesFirst (adjLookup exAdjAcyclic) [("B", 1), ("A", 1)] ∧
      ([("B", 1), ("A", 1)] : List Key).Nodup ∧ ("A", 1) ∈ [("B", 1), ("A", 1)] ∧
      (∀ x ∈ [("B", 1), ("A", 1)], ∀ d ∈ adjLookup exAdjAcyclic x,
        d ∈ [("B", 1), ("A", 1)]) ∧
      (∀ n, ∀ x ∈ List.take n [("B", 1), ("A", 1)],
        ∀ d ∈ adjLookup exAdjAcyclic x, d ∈ List.take n [("B", 1), ("A", 1)]) ∧
      fetchAll exAdjAcyclic ("A", 1) [] = (none, [("B", 1), ("A", 1)])) :=
  ⟨by rfl, claim6_topological_install_order exAdjAcyclic ("A", 1) _ (by rfl)⟩

/-- Claim C4: install is idempotent with a content-conflict guard: after a
successful install, installing the same descriptor against the unchanged
store again produces no observable change (no error, the cache is returned
as is), and install fails with `VersionAlreadyPublishedError` exactly when
the (BundleId, Version) key already exists locally with a differing content
hash. -/
theorem claim4_install_idempotent_conflict_guard (d : Descriptor)
    (snap : StoreSnapshot) (files : List (String × Bytes)) (cache : LocalCache) :
    (∀ cache2, install d snap files cache = .ok cache2 →
      install d snap files cache2 = .ok cache2) ∧
    (∀ dir, buildDirectory d snap files = .ok dir →
      (install d snap files cache = .error (.versionAlreadyPublished d.bid d.version) ↔
        ∃ ex, cacheLookup cache (d.bid, d.version) = some ex ∧
          dirHash ex ≠ dirHash dir)) := by
  constructor
  · intro cache2 h
    unfold install at h ⊢
    rcases hb : buildDirectory d snap files with e | dir
    · rw [hb] at h
      exact Except.noConfusion h
    · rw [hb] at h
      dsimp only at h
      rcases hl : cacheLookup cache (d.bid, d.version) with _ | ex
      · rw [hl] at h
        dsimp only at h
        have hc2 : ((d.bid, d.version), dir) :: cache = cache2 := Except.ok.inj h
        subst hc2
        have hl2 : cacheLookup (((d.bid, d.version), dir) :: cache) (d.bid, d.version) =
            some dir := by
          unfold cacheLookup
          rw [if_pos rfl]
        rw [hl2]
        dsimp only
        rw [if_pos rfl]
      · rw [hl] at h
        dsimp only at h
        by_cases hh : dirHash ex = dirHash dir
        · rw [if_pos hh] at h
          have hc2 : cache = cache2 := Except.ok.inj h
          subst hc2
          rw [hl]
          dsimp only
          rw [if_pos hh]
        · rw [if_neg hh] at h
          exact Except.noConfusion h
  · intro dir hb
    unfold install
    rw [hb]
    dsimp only
    rcases hl : cacheLookup cache (d.bid, d.version) with _ | ex
    · constructor
      · intro h
        exact Except.noConfusion h
      · rintro ⟨ex, hex, _⟩
        exact Option.noConfusion hex
    · dsimp only
      by_cases hh : dirHash ex = dirHash dir
      · rw [if_pos hh]
        constructor
        · intro h
          exact Except.noConfusion h
        · rintro ⟨ex2, hex2, hne⟩
          have hee : ex = ex2 := Option.some.inj hex2
          subst hee
          exact absurd hh hne
      · rw [if_neg hh]
        constructor
        · intro _
          exact ⟨ex, rfl, hh⟩
        · intro _
          rfl

/-- Witness for C4 at concrete inputs: a first install succeeds, the second
is a no-op, and re-publishing the same key with different content fails with
`VersionAlreadyPublishedError`. -/
theorem claim4_install_idempotent_conflict_guard_witness :
    install exDesc exSnap [] [] = .ok exCache1 ∧
    install exDesc exSnap [] exCache1 = .ok exCache1 ∧
    install exDesc exSnap [] [(("exbundle", 1), exOtherDir)] =
      .error (.versionAlreadyPublished "exbundle" 1) :=
  ⟨by rfl,
    (claim4_install_idempotent_conflict_guard exDesc exSnap [] []).1 exCache1 (by rfl),
    ((claim4_install_idempotent_conflict_guard exDesc exSnap []
        [(("exbundle", 1), exOtherDir)]).2 exInstallDir (by rfl)).mpr
      ⟨exOtherDir, by rfl, by decide⟩⟩

/-- Claim C5: for every descriptor and store snapshot, the resolved selection
is exactly the union of the contexts matching any includes pattern minus the
union of those matching any excludes pattern, and resolution fails with
`EmptySelectionError` exactly when that selection is empty (otherwise it
returns the selection). -/
theorem claim5_resolve_union_minus_excludes (d : Descriptor) (snap : StoreSnapshot) :
    (∀ c, c ∈ selectedContexts d snap ↔
      (c ∈ snap.contexts ∧ (∃ pat ∈ d.includes, pat.matches c = true) ∧
        ¬ ∃ pat ∈ d.excludes, pat.matches c = true)) ∧
    (resolveContexts d snap = .error .emptySelection ↔ selectedContexts d snap = []) ∧
    (∀ l, resolveContexts d snap = .ok l → l = selectedContexts d snap ∧ l ≠ []) := by
  refine ⟨?_, ?_, ?_⟩
  · intro c
    unfold selectedContexts
    rw [List.mem_filter, List.mem_filter]
    constructor
    · rintro ⟨⟨hmem, hinc⟩, hexc⟩
      refine ⟨hmem, ?_, ?_⟩
      · rw [List.any_eq_true] at hinc
        exact hinc
      · intro hex
        rw [Bool.not_eq_eq_eq_not, Bool.not_true, List.any_eq_false] at hexc
        obtain ⟨pat, hpat, hm⟩ := hex
        exact absurd hm (by simpa using hexc pat hpat)
    · rintro ⟨hmem, hinc, hexc⟩
      refine ⟨⟨hmem, ?_⟩, ?_⟩
      · rw [List.any_eq_true]
        exact hinc
      · rw [Bool.not_eq_eq_eq_not, Bool.not_true, List.any_eq_false]
        intro pat hpat
        by_cases hm : pat.matches c = true
        · exact absurd ⟨pat, hpat, hm⟩ hexc
        · simpa using hm
  · unfold resolveContexts
    rcases hs : selectedContexts d snap with _ | ⟨c, cs⟩
    · simp
    · simp
  · intro l h
    unfold resolveContexts at h
    rcases hs : selectedContexts d snap with _ | ⟨c, cs⟩
    · rw [hs] at h
      exact Except.noConfusion h
    · rw [hs] at h
      dsimp only at h
      have hl : c :: cs = l := Except.ok.inj h
      subst hl
      exact ⟨rfl, by simp⟩

/-- Witness for C5 at concrete inputs: the descriptor selects exactly its
literal include, resolution returns it, and it is characterized by the
membership property. -/
theorem claim5_resolve_union_minus_excludes_witness :
    resolveContexts exDesc exSnap = .ok ["ctxA"] ∧
    (["ctxA"] = selectedContexts exDesc exSnap ∧ (["ctxA"] : List String) ≠ []) ∧
    ("ctxA" ∈ selectedContexts exDesc exSnap ↔
      ("ctxA" ∈ exSnap.contexts ∧
        (∃ pat ∈ exDesc.includes, pat.matches "ctxA" = true) ∧
        ¬ ∃ pat ∈ exDesc.excludes, pat.matches "ctxA" = true)) :=
  ⟨by rfl,
    (claim5_resolve_union_minus_excludes exDesc exSnap).2.2 ["ctxA"] (by rfl),
    (claim5_resolve_union_minus_excludes exDesc exSnap).1 "ctxA"⟩

/-- Claim C7: a fetch for a bundle present in the local cache returns it
with zero network accesses (local lookup always short-circuits the remotes),
both for an explicit version and for an unspecified version (which then
resolves to the highest local version); and a fetch with an unspecified
version for a bundle absent locally selects the highest version advertised
by any reachable remote and proceeds on that key. -/
theorem claim7_fetch_local_shortcircuit_highest_version (cache : LocalCache)
    (remotes : List Remote) (bid : BundleId) :
    (∀ v dir, cacheLookup cache (bid, v) = some dir →
      fetchOne cache remotes bid (some v) = (.ok ((bid, v), cache), 0)) ∧
    (∀ v, listMax (localVersionsOf cache bid) = some v →
      v ∈ localVersionsOf cache bid ∧ (∀ w ∈ localVersionsOf cache bid, w ≤ v) ∧
      fetchOne cache remotes bid none = (.ok ((bid, v), cache), 0)) ∧
    (localVersionsOf cache bid = [] →
      ∀ v, listMax (advertisedVersions remotes bid) = some v →
        v ∈ advertisedVersions remotes bid ∧
        (∀ w ∈ advertisedVersions remotes bid, w ≤ v) ∧
        fetchOne cache remotes bid none =
          addCalls (reachableCount remotes) (fetchRemote cache remotes (bid, v))) := by
  refine ⟨?_, ?_, ?_⟩
  · intro v dir h
    unfold fetchOne
    dsimp only
    rw [h]
  · intro v h
    obtain ⟨hmem, hmax⟩ := listMax_spec h
    refine ⟨hmem, hmax, ?_⟩
    unfold fetchOne
    dsimp only
    rw [h]
  · intro hempty v h
    obtain ⟨hmem, hmax⟩ := listMax_spec h
    refine ⟨hmem, hmax, ?_⟩
    unfold fetchOne
    dsimp only
    rw [listMax_nil_iff.mpr hempty]
    dsimp only
    rw [h]

/-- Witness for C7 at concrete inputs: a locally present bundle is returned
with zero network calls (explicit and unspecified version), and with a cold
cache the unspecified version resolves to the highest advertised version 3
of the example remote. -/
theorem claim7_fetch_local_shortcircuit_highest_version_witness :
    fetchOne exCache1 [exRemote] "exbundle" (some 1) =
      (.ok (("exbundle", 1), exCache1), 0) ∧
    fetchOne exCache1 [exRemote] "exbundle" none =
      (.ok (("exbundle", 1), exCache1), 0) ∧
    (3 ∈ advertisedVersions [exRemote] "exbundle" ∧
      (∀ w ∈ advertisedVersions [exRemote] "exbundle", w ≤ 3) ∧
      fetchOne [] [exRemote] "exbundle" none =
        addCalls (reachableCount [exRemote]) (fetchRemote [] [exRemote] ("exbundle", 3))) :=
  ⟨(claim7_fetch_local_shortcircuit_highest_version exCache1 [exRemote] "exbundle").1
      1 exInstallDir (by rfl),
    ((claim7_fetch_local_shortcircuit_highest_version exCache1 [exRemote] "exbundle").2.1
      1 (by rfl)).2.2,
    (claim7_fetch_local_shortcircuit_highest_version [] [exRemote] "exbundle").2.2
      (by rfl) 3 (by rfl)⟩

/-- Claim C10: constructing and entering a Bundle object for a bundle id not
already installed in the local cache automatically fetches that bundle from
the configured remotes — no prior explicit fetch is required — and
afterwards the bundle is installed and each of its contexts is queryable
through the returned view. -/
theorem claim10_bundle_autofetch (cache : LocalCache) (remotes : List Remote)
    (bid : BundleId) (v : Nat) (b : BundleDirectory)
    (habsent : cacheLookup cache (bid, v) = none)
    (hdl : download remotes (bid, v) = some (pack b)) :
    bundleEnter cache remotes bid v =
      .ok ((((bid, v), canonDir b)) :: cache, canonDir b) ∧
    cacheLookup ((((bid, v), canonDir b)) :: cache) (bid, v) = some (canonDir b) ∧
    (∀ cname content, (cname, content) ∈ b.graphs →
      (cname, content) ∈ (canonDir b).graphs) := by
  refine ⟨?_, ?_, ?_⟩
  · unfold bundleEnter
    rw [habsent]
    dsimp only
    rw [hdl]
    dsimp only
    rw [unpack_pack]
  · unfold cacheLookup
    rw [if_pos rfl]
  · intro cname content hmem
    exact (sortEntries_perm b.graphs).mem_iff.mpr hmem

/-- Witness for C10 at concrete inputs: entering a Bundle for the
not-yet-installed example bundle fetches it from the example remote and its
context is queryable afterwards. -/
theorem claim10_bundle_autofetch_witness :
    bundleEnter [] [exRemote] "exbundle" 1 =
      .ok ([(("exbundle", 1), canonDir exDir)], canonDir exDir) ∧
    cacheLookup [(("exbundle", 1), canonDir exDir)] ("exbundle", 1) =
      some (canonDir exDir) ∧
    ("ctxA", [1]) ∈ (canonDir exDir).graphs :=
  ⟨(claim10_bundle_autofetch [] [exRemote] "exbundle" 1 exDir (by rfl) (by rfl)).1,
    (claim10_bundle_autofetch [] [exRemote] "exbundle" 1 exDir (by rfl) (by rfl)).2.1,
    (claim10_bundle_autofetch [] [exRemote] "exbundle" 1 exDir (by rfl) (by rfl)).2.2
      "ctxA" [1] (by decide)⟩

/-- Claim C9: repository-index refresh is single-flight per remote key: in
any interleaving of concurrent callers' requests and the network call's
completion within one freshness window, at most one network call is issued,
exactly one once any caller has requested, every result delivered to any
caller is the same single listing, and all requesting callers receive that
result: each requester is either still among the waiters of the in-flight
call, or has been delivered the single call's cached listing — so once the
call has completed, every requester has received exactly its result. -/
theorem claim9_singleflight_refresh (evs : List SFEvent) :
    (sfRun evs).netCalls ≤ 1 ∧
    ((∃ c, SFEvent.request c ∈ evs) → (sfRun evs).netCalls = 1) ∧
    (∀ d1 ∈ (sfRun evs).delivered, ∀ d2 ∈ (sfRun evs).delivered, d1.2 = d2.2) ∧
    (∀ c, SFEvent.request c ∈ evs →
      (∃ ws, (sfRun evs).inflight = some ws ∧ c ∈ ws) ∨
      (∃ l, (sfRun evs).cached = some l ∧ (c, l) ∈ (sfRun evs).delivered)) ∧
    ((sfRun evs).inflight = none → ∀ c, SFEvent.request c ∈ evs →
      ∃ l, (sfRun evs).cached = some l ∧ (c, l) ∈ (sfRun evs).delivered) := by
  have hinv := sfRun_inv evs
  obtain ⟨h1, _, _, h4, h5, _⟩ := hinv
  refine ⟨h1, ?_, ?_, ?_, ?_⟩
  · rintro ⟨c, hc⟩
    obtain ⟨pre, post, hsplit⟩ := List.append_of_mem hc
    have hge : 1 ≤ (sfRun evs).netCalls := by
      unfold sfRun
      rw [hsplit, List.foldl_append, List.foldl_cons]
      have hstep : (sfStep (pre.foldl sfStep sfInit) (SFEvent.request c)).netCalls = 1 :=
        sfStep_request_calls (sfFold_inv pre sfInit sfInv_init) c
      have := sfFold_calls_mono post (sfStep (pre.foldl sfStep sfInit) (SFEvent.request c))
      omega
    omega
  · intro d1 hd1 d2 hd2
    rcases hcached : (sfRun evs).cached with _ | l
    · rw [h5 hcached] at hd1
      cases hd1
    · rw [h4 l hcached d1 hd1, h4 l hcached d2 hd2]
  · intro c hc
    exact sfRun_served hc
  · intro hidle c hc
    rcases sfRun_served hc with ⟨ws, hws, _⟩ | hrecv
    · rw [hidle] at hws
      exact Option.noConfusion hws
    · exact hrecv

/-- Witness for C9 at a concrete interleaving of three callers: exactly one
network call, all deliveries agree, no call is left in flight, and each of
the three requesting callers has received the single call's cached
listing. -/
theorem claim9_singleflight_refresh_witness :
    (sfRun exEvents).netCalls = 1 ∧
    (∀ d1 ∈ (sfRun exEvents).delivered, ∀ d2 ∈ (sfRun exEvents).delivered,
      d1.2 = d2.2) ∧
    (sfRun exEvents).inflight = none ∧
    (∃ l, (sfRun exEvents).cached = some l ∧ (0, l) ∈ (sfRun exEvents).delivered) ∧
    (∃ l, (sfRun exEvents).cached = some l ∧ (1, l) ∈ (sfRun exEvents).delivered) ∧
    (∃ l, (sfRun exEvents).cached = some l ∧ (2, l) ∈ (sfRun exEvents).delivered) :=
  ⟨(claim9_singleflight_refresh exEvents).2.1 ⟨0, List.mem_cons_self _ _⟩,
    (claim9_singleflight_refresh exEvents).2.2.1,
    by rfl,
    (claim9_singleflight_refresh exEvents).2.2.2.2 (by rfl) 0 (by simp [exEvents]),
    (claim9_singleflight_refresh exEvents).2.2.2.2 (by rfl) 1 (by simp [exEvents]),
    (claim9_singleflight_refresh exEvents).2.2.2.2 (by rfl) 2 (by simp [exEvents])⟩

end OwmetaCore
